import Mathlib

/-!
Verification of `import_checker.py`: a circular-import checker that
extracts import lines from JS files, builds the directed import graph reachable from an
entry point, computes strongly connected components with Tarjan's algorithm and
prints every component of size other than one.

The embedding is executable throughout: file contents are plain strings, the
filesystem is an association list from paths to contents, and the two recursive
procedures of the script (`getEdges` and `_StrongCC.strong_connect`) are
modelled with an explicit fuel argument by structural recursion, so that every
definition reduces in the kernel.  Fuel-independence beyond an explicit bound
is proved below, which is exactly the termination argument for the Python
recursions.
-/

namespace ImportChecker

/-! ### Path helpers (POSIX semantics of `os.path`)

`getImports` post-processes every captured import string with
`os.path.normpath(os.path.join(os.path.dirname(fn), importFile))`.
The three functions are modelled character-by-character after `posixpath`.
-/

/-- Split a character list on a separator character, keeping empty segments,
like Python's `str.split(sep)`. -/
def splitChar (c : Char) : List Char → List (List Char)
  | [] => [[]]
  | a :: rest =>
    if a = c then [] :: splitChar c rest
    else
      match splitChar c rest with
      | [] => [[a]]
      | l :: ls => (a :: l) :: ls

/-- Interleave a separator character between segments, like `sep.join`. -/
def joinChar (c : Char) : List (List Char) → List Char
  | [] => []
  | [l] => l
  | l :: ls => l ++ c :: joinChar c ls

/-- Model of `posixpath.dirname`: everything up to the last slash, with
trailing slashes stripped unless the result consists only of slashes. -/
def dirname (p : String) : String :=
  let head := ((p.data.reverse.dropWhile fun a => a ≠ '/').reverse)
  if head = [] then ""
  else if head.all fun a => a = '/' then String.mk head
  else String.mk ((head.reverse.dropWhile fun a => a = '/').reverse)

/-- Model of the two-argument `posixpath.join`. -/
def pathJoin (a b : String) : String :=
  if b.data.head? = some '/' then b
  else if a = "" ∨ a.data.getLast? = some '/' then a ++ b
  else a ++ "/" ++ b

/-- The component-folding loop of `posixpath.normpath`; the accumulator keeps
the retained components in reverse order (Python appends and pops at the
right end of `new_comps`). -/
def normComps (slashed : Bool) : List (List Char) → List (List Char) → List (List Char)
  | acc, [] => acc
  | acc, comp :: rest =>
    if comp = [] ∨ comp = ['.'] then normComps slashed acc rest
    else if comp ≠ ['.', '.'] ∨ (¬slashed ∧ acc = []) ∨ acc.head? = some ['.', '.'] then
      normComps slashed (comp :: acc) rest
    else if acc ≠ [] then normComps slashed acc.tail rest
    else normComps slashed acc rest

/-- Model of `posixpath.normpath`: collapse `.`/`..`/empty segments, with the
special treatment of one versus exactly two leading slashes. -/
def normpath (p : String) : String :=
  if p = "" then "."
  else
    let cs := p.data
    let slashes : Nat :=
      if cs.head? = some '/' then
        if cs.take 2 = ['/', '/'] ∧ cs.take 3 ≠ ['/', '/', '/'] then 2 else 1
      else 0
    let comps := normComps (slashes ≠ 0) [] (splitChar '/' cs)
    let joined := List.replicate slashes '/' ++ joinChar '/' comps.reverse
    if joined = [] then "." else String.mk joined

/-! ### Import extraction

Line 17 of the source runs
`re.findall("^import .*?\x27([^\x27]+)\x27;$", contents, re.MULTILINE)`.
Since `.` never matches a newline and both anchors are line anchors, every
match lies within a single line and each line yields at most one match (a
second match on the same line would need `^` to match mid-line).  So `findall`
is the in-order concatenation of the per-line matches, which is what is
modelled here.  Within one line the lazy `.*?` selects the first quote
position from which `\x27([^\x27]+)\x27;$` completes; since `[^\x27]+` can
never skip a quote, backtracking it is useless and the scan just moves on to
the next quote character. -/

/-- Scan a line tail for the first quote position from which a nonempty
quote-free capture is closed by a quote and a semicolon ending the line. -/
def findImport : List Char → Option (List Char)
  | [] => none
  | c :: rest =>
    if c = '\'' then
      let b := rest.takeWhile fun d => d ≠ '\''
      if b ≠ [] ∧ rest.drop b.length = ['\'', ';'] then some b
      else findImport rest
    else findImport rest

/-- Per-line match of the import pattern: the line must start with the eight
characters `import ` followed by the lazily-scanned quoted group. -/
def matchImportLine (line : List Char) : Option (List Char) :=
  if line.take 7 = ("import ").data then findImport (line.drop 7) else none

/-- Model of `getImports` (source lines 14–20), as a function of the file's
name and its full text: the captured import strings of every matching line, in
line order, each resolved against `dirname fn` and normalized. -/
def getImports (fn : String) (contents : String) : List String :=
  let imports := (splitChar '\n' contents.data).filterMap matchImportLine
  let dn := dirname fn
  imports.map fun importFile => normpath (pathJoin dn (String.mk importFile))

/-! ### The traversal `getEdges`

The filesystem is an association list from file names to contents; a missing
file models `open` raising `IOError`.  The traversal is instrumented: besides
the Python function's result (the edge list, or the propagated error) it
returns the final visited set and the trace of file names on which
`getImports` was invoked, in invocation order — the trace is what the claims
about "extracted at most once" quantify over.  On an error the edge list is
discarded (the exception propagates) but visited set and trace keep the work
performed before the failure. -/

abbrev FileSys : Type := List (String × String)

/-- Look up a file's contents; `none` models `IOError`. -/
def readFile (fs : FileSys) (fn : String) : Option String :=
  List.lookup fn fs

/-- Result of the instrumented traversal. -/
structure TravOut where
  result : Except String (List (String × String))
  visited : List String
  trace : List String
  deriving Repr

/-- The `for i in imports` loop of `getEdges` (source lines 28–32), threading
the accumulated edge list, the visited set and the trace; `ge` is the
recursive call at one fuel less. -/
def goEdges (ge : String → List String → TravOut) (startingFn : String)
    (edges : List (String × String)) (visited : List String)
    (trace : List String) : List String → TravOut
  | [] => ⟨.ok edges, visited, trace⟩
  | i :: rest =>
    let edges := edges ++ [(startingFn, i)]
    if i ∈ visited then goEdges ge startingFn edges visited trace rest
    else
      let sub := ge i (i :: visited)
      match sub.result with
      | .error e => ⟨.error e, sub.visited, trace ++ sub.trace⟩
      | .ok sess => goEdges ge startingFn (edges ++ sess) sub.visited (trace ++ sub.trace) rest

/-- Fueled model of `getEdges` (source lines 23–33).  At fuel zero an error is
returned; the fuel-independence theorem below shows this case is never reached
once the fuel exceeds the number of unvisited files. -/
def getEdgesF (fs : FileSys) : Nat → String → List String → TravOut
  | 0, startingFn, visited => ⟨.error startingFn, visited, []⟩
  | fuel + 1, startingFn, visited =>
    match readFile fs startingFn with
    | none => ⟨.error startingFn, visited, [startingFn]⟩
    | some contents =>
      let imports := getImports startingFn contents
      let out := goEdges (getEdgesF fs fuel) startingFn [] visited [startingFn] imports
      out

/-- Fuel that always suffices: two more than the number of files (proved
below: the result is the same for every fuel of at least
`unvisitedCount fs visited + 2`). -/
def edgeFuel (fs : FileSys) : Nat := fs.length + 2

/-- Number of file entries not yet visited: the quantity that shrinks when
the traversal descends. -/
def unvisitedCount (fs : FileSys) (visited : List String) : Nat :=
  ((fs.map Prod.fst).filter fun k => decide (k ∉ visited)).length

/-- The `getEdges(startingFn)` entry call, with the empty visited map of the
`visited is None` branch. -/
def getEdgesT (fs : FileSys) (startingFn : String) : TravOut :=
  getEdgesF fs (edgeFuel fs) startingFn []

/-- The Python function's visible result: the edge list or the error. -/
def getEdges (fs : FileSys) (startingFn : String) : Except String (List (String × String)) :=
  (getEdgesT fs startingFn).result

/-! ### The graph (source lines 36–47)

`Graph.__init__` stores the edge list, the vertex set
`set(chain(*edges)).union(vertices)` and the adjacency map `tails` built by
appending `tail` to `tails[head]` in edge-list order.  The vertex set is
modelled as a duplicate-free list (`dedup`); Python's set iteration order is
unspecified, and the component theorems below do not depend on the order
chosen.  The adjacency map is recovered from the edge list by filtering. -/

structure Graph where
  edges : List (String × String)
  vertices : List String

/-- The constructor `Graph(edges, vertices=())`. -/
def Graph.ofEdges (edges : List (String × String)) (extra : List String) : Graph :=
  ⟨edges, ((edges.flatMap fun e => [e.1, e.2]) ++ extra).dedup⟩

/-- The adjacency list `self.tails[head]`, in edge-list order. -/
def Graph.tails (g : Graph) (head : String) : List String :=
  (g.edges.filter fun e => e.1 == head).map fun e => e.2

/-! ### The SCC engine `_StrongCC` (source lines 49–81)

The mutable attributes of the `_StrongCC` instance form the state record
below; `__call__` resets them, so each invocation is a pure function of the
graph.  Dictionary update is modelled by prepending to an association list
(the lookup sees the newest binding); the stack keeps its top at the head, so
Python's `stack[-1]`/`append`/`pop` become head operations and the popped
component is collected by `takeWhile` in pop order. -/

structure St where
  counter : Nat
  count : List (String × Nat)
  lowlink : List (String × Nat)
  stack : List String
  comps : List (List String)
  deriving Repr

/-- The value `count[v]` (only read where the key is present). -/
def numD (σ : St) (v : String) : Nat := ((σ.count).lookup v).getD 0

/-- The value `lowlink[v]` (only read where the key is present). -/
def lowD (σ : St) (v : String) : Nat := ((σ.lowlink).lookup v).getD 0

/-- Membership test `v in count`. -/
def seen (σ : St) (v : String) : Bool := ((σ.count).lookup v).isSome

/-- Assignment `lowlink[v] = n`. -/
def setLow (σ : St) (v : String) (n : Nat) : St :=
  { σ with lowlink := (v, n) :: σ.lowlink }

/-- Source lines 52–53: `lowlink[head] = count[head] = self.counter + 1` and
`stack.append(head)`. -/
def discover (σ : St) (v : String) : St :=
  ⟨σ.counter + 1, (v, σ.counter + 1) :: σ.count, (v, σ.counter + 1) :: σ.lowlink,
    v :: σ.stack, σ.comps⟩

/-- The successor loop, source lines 55–61; `sc` is the recursive
`strong_connect` at one fuel less. -/
def visitTails (g : Graph) (sc : St → String → St) (head : String) :
    St → List String → St
  | σ, [] => σ
  | σ, t :: rest =>
    let σ' :=
      match (σ.count).lookup t with
      | none =>
        let σr := sc σ t
        setLow σr head (min (lowD σr head) (lowD σr t))
      | some ct =>
        if ct < numD σ head then
          if t ∈ σ.stack then setLow σ head (min (lowD σ head) ct) else σ
        else σ
    visitTails g sc head σ' rest

/-- Source lines 63–67: if `lowlink[head] == count[head]`, pop the stack while
the top's count is at least `count[head]` into a new component. -/
def popRoot (σ : St) (head : String) : St :=
  if lowD σ head = numD σ head then
    { σ with stack := σ.stack.dropWhile fun w => numD σ head ≤ numD σ w,
             comps := σ.comps ++ [σ.stack.takeWhile fun w => numD σ head ≤ numD σ w] }
  else σ

/-- Fueled model of `strong_connect` (source lines 50–67). -/
def strongConnectF (g : Graph) : Nat → St → String → St
  | 0, σ, _ => σ
  | fuel + 1, σ, head =>
    popRoot (visitTails g (strongConnectF g fuel) head (discover σ head) (g.tails head)) head

/-- The reset state of `__call__` (source lines 71–75). -/
def St.init : St := ⟨0, [], [], [], []⟩

/-- The vertex loop of `__call__` (source lines 77–79). -/
def sccFold (g : Graph) (fuel : Nat) : St → List String → St
  | σ, [] => σ
  | σ, v :: vs =>
    sccFold g fuel (if seen σ v then σ else strongConnectF g fuel σ v) vs

/-- Fuel that always suffices for `strong_connect`: more than the number of
vertices. -/
def sccFuel (g : Graph) : Nat := g.vertices.length + 1

/-- The call `strongly_connected_components(graph)` (source lines 69–81). -/
def stronglyConnectedComponents (g : Graph) : List (List String) :=
  (sccFold g (sccFuel g) St.init g.vertices).comps

/-! ### The reporting pipeline (source lines 85–89) -/

/-- The loop at lines 86–89: every component whose length is 1 is skipped,
all others are printed in order. -/
def report (comps : List (List String)) : List (List String) :=
  comps.filter fun edgeGroup => edgeGroup.length != 1

/-- Components computed by the whole run: `strongly_connected_components(Graph(edges))`
with `edges = getEdges(entry)`; an I/O error before that aborts the run. -/
def runComponents (fs : FileSys) (entry : String) : Except String (List (List String)) :=
  (getEdges fs entry).map fun edges => stronglyConnectedComponents (Graph.ofEdges edges [])

/-- The lines the run prints (each element one printed component). -/
def runOutput (fs : FileSys) (entry : String) : Except String (List (List String)) :=
  (runComponents fs entry).map report

/-- The configured entry point, source line 12. -/
def ENTRY_POINT : String := "lib/run_tests.js"

/-- A single quote character as a string, for building file contents. -/
def qm : String := String.mk ['\'']

/-! ### Lemmas about the traversal -/

lemma length_filter_mono {α : Type} (p q : α → Bool) (l : List α)
    (h : ∀ a, q a = true → p a = true) :
    (l.filter q).length ≤ (l.filter p).length := by
  induction l with
  | nil => simp
  | cons a t ih =>
    by_cases hq : q a = true
    · rw [List.filter_cons_of_pos hq, List.filter_cons_of_pos (h a hq)]
      simpa using ih
    · rw [List.filter_cons_of_neg (by simpa using hq)]
      by_cases hp : p a = true
      · rw [List.filter_cons_of_pos hp]
        exact le_trans ih (Nat.le_succ _)
      · rw [List.filter_cons_of_neg (by simpa using hp)]
        exact ih

lemma unvisitedCount_mono (fs : FileSys) {v w : List String} (h : v ⊆ w) :
    unvisitedCount fs w ≤ unvisitedCount fs v := by
  apply length_filter_mono
  intro a ha
  simp only [decide_eq_true_eq] at ha ⊢
  exact fun hav => ha (h hav)

lemma mem_keys_of_readFile {fs : FileSys} {i c : String}
    (h : readFile fs i = some c) : i ∈ fs.map Prod.fst := by
  induction fs with
  | nil => simp [readFile, List.lookup] at h
  | cons e t ih =>
    obtain ⟨k, b⟩ := e
    simp only [readFile, List.lookup] at h
    rcases hik : (i == k) with _ | _
    · rw [hik] at h
      have h' : readFile t i = some c := h
      exact List.mem_cons_of_mem _ (ih h')
    · simp [eq_of_beq hik]

lemma filter_notMem_cons_lt {l : List String} {i : String} {vis : List String}
    (hi : i ∉ vis) (hmem : i ∈ l) :
    (l.filter fun k => decide (k ∉ i :: vis)).length <
      (l.filter fun k => decide (k ∉ vis)).length := by
  induction l with
  | nil => simp at hmem
  | cons a t ih =>
    by_cases hai : a = i
    · subst hai
      rw [List.filter_cons_of_neg (by simp), List.filter_cons_of_pos (by simpa using hi)]
      refine Nat.lt_succ_of_le ?_
      apply length_filter_mono
      intro x hx
      simp only [decide_eq_true_eq] at hx ⊢
      exact fun hxv => hx (List.mem_cons_of_mem _ hxv)
    · have hit : i ∈ t := by
        rcases List.mem_cons.mp hmem with h | h
        · exact absurd h.symm hai
        · exact h
      by_cases hav : a ∈ vis
      · rw [List.filter_cons_of_neg (by simp; exact fun _ => hav),
          List.filter_cons_of_neg (by simpa using hav)]
        exact ih hit
      · rw [List.filter_cons_of_pos (by simp [hav, hai]),
          List.filter_cons_of_pos (by simpa using hav)]
        exact Nat.succ_lt_succ (ih hit)

lemma unvisitedCount_cons_lt {fs : FileSys} {i : String} {vis : List String}
    {c : String} (hi : i ∉ vis) (hr : readFile fs i = some c) :
    unvisitedCount fs (i :: vis) < unvisitedCount fs vis :=
  filter_notMem_cons_lt hi (mem_keys_of_readFile hr)

lemma goEdges_visited_mono (ge : String → List String → TravOut)
    (hge : ∀ i vis, vis ⊆ (ge i vis).visited) (fn : String) :
    ∀ ts edges vis tr, vis ⊆ (goEdges ge fn edges vis tr ts).visited := by
  intro ts
  induction ts with
  | nil => intro edges vis tr; simp [goEdges]
  | cons i rest ih =>
    intro edges vis tr
    by_cases hi : i ∈ vis
    · simpa [goEdges, hi] using ih _ vis tr
    · have hsub : vis ⊆ (ge i (i :: vis)).visited :=
        List.Subset.trans (List.subset_cons_self _ _) (hge i (i :: vis))
      rcases hres : (ge i (i :: vis)).result with e | sess
      · simpa [goEdges, hi, hres] using hsub
      · simpa [goEdges, hi, hres] using List.Subset.trans hsub (ih _ _ _)

lemma getEdgesF_visited_mono (fs : FileSys) :
    ∀ fuel fn vis, vis ⊆ (getEdgesF fs fuel fn vis).visited := by
  intro fuel
  induction fuel with
  | zero => intro fn vis; simp [getEdgesF]
  | succ fuel ih =>
    intro fn vis
    rcases hr : readFile fs fn with _ | c
    · simp [getEdgesF, hr]
    · simpa [getEdgesF, hr] using
        goEdges_visited_mono (getEdgesF fs fuel) (fun i v => ih i v) fn _ [] vis [fn]

lemma goEdges_congr (ge₁ ge₂ : String → List String → TravOut) (fn : String) :
    ∀ ts edges vis tr,
      (∀ i vis', vis ⊆ vis' → i ∉ vis' → ge₁ i (i :: vis') = ge₂ i (i :: vis')) →
      (∀ i vis', vis' ⊆ (ge₁ i vis').visited) →
      goEdges ge₁ fn edges vis tr ts = goEdges ge₂ fn edges vis tr ts := by
  intro ts
  induction ts with
  | nil => intro edges vis tr _ _; rfl
  | cons i rest ih =>
    intro edges vis tr hcong hmono
    by_cases hi : i ∈ vis
    · simpa [goEdges, hi] using ih _ vis tr hcong hmono
    · have hsub : ge₁ i (i :: vis) = ge₂ i (i :: vis) :=
        hcong i vis (List.Subset.refl _) hi
    -- after the sub-call the loop continues from the sub-call's visited set
      rcases hres : (ge₁ i (i :: vis)).result with e | sess
      · simp [goEdges, hi, hres, ← hsub]
      · have hvis : vis ⊆ (ge₁ i (i :: vis)).visited :=
          List.Subset.trans (List.subset_cons_self _ _) (hmono i (i :: vis))
        have := ih (edges ++ (fn, i) :: sess) (ge₁ i (i :: vis)).visited
          (tr ++ (ge₁ i (i :: vis)).trace)
          (fun j v' hv' hj => hcong j v' (List.Subset.trans hvis hv') hj) hmono
        simp [goEdges, hi, hres, ← hsub, this]

/-- Fuel-independence of getEdges: once the fuel exceeds the number of
unvisited files by at least two, the result does not depend on the fuel.
This is the termination argument for the recursion of source lines 23–33. -/
lemma getEdgesF_fuel_congr (fs : FileSys) :
    ∀ f₁ f₂ fn vis, unvisitedCount fs vis + 2 ≤ f₁ → unvisitedCount fs vis + 2 ≤ f₂ →
      getEdgesF fs f₁ fn vis = getEdgesF fs f₂ fn vis := by
  intro f₁
  induction f₁ with
  | zero => intro f₂ fn vis h₁ _; omega
  | succ f₁ ih =>
    intro f₂ fn vis h₁ h₂
    rcases f₂ with _ | f₂
    · omega
    rcases hr : readFile fs fn with _ | c
    · simp [getEdgesF, hr]
    · simp only [getEdgesF, hr]
      refine goEdges_congr _ _ fn (getImports fn c) [] vis [fn] ?_
        (fun i v => getEdgesF_visited_mono fs f₁ i v)
      intro i vis' hvv hi
      rcases hri : readFile fs i with _ | ci
      · rcases f₁ with _ | f₁'
        · omega
        rcases f₂ with _ | f₂'
        · omega
        simp [getEdgesF, hri]
      · have hlt : unvisitedCount fs (i :: vis') < unvisitedCount fs vis :=
          lt_of_lt_of_le (unvisitedCount_cons_lt hi hri) (unvisitedCount_mono fs hvv)
        exact ih f₂ i (i :: vis') (by omega) (by omega)

lemma goEdges_ok_mem (ge : String → List String → TravOut) (fn : String) :
    ∀ ts edges vis tr es,
      (goEdges ge fn edges vis tr ts).result = .ok es →
      (∀ p ∈ edges, p ∈ es) ∧ ∀ i ∈ ts, (fn, i) ∈ es := by
  intro ts
  induction ts with
  | nil =>
    intro edges vis tr es h
    simp only [goEdges] at h
    obtain rfl : edges = es := by simpa using h
    exact ⟨fun p hp => hp, by simp⟩
  | cons i rest ih =>
    intro edges vis tr es h
    by_cases hi : i ∈ vis
    · simp only [goEdges, hi, if_true] at h
      obtain ⟨hacc, hrest⟩ := ih _ vis tr es h
      refine ⟨fun p hp => hacc p (by simp [hp]), ?_⟩
      intro j hj
      rcases List.mem_cons.mp hj with rfl | hj
      · exact hacc (fn, j) (by simp)
      · exact hrest j hj
    · rcases hres : (ge i (i :: vis)).result with e | sess
      · simp [goEdges, hi, hres] at h
      · simp only [goEdges, hi, if_false, hres] at h
        obtain ⟨hacc, hrest⟩ := ih _ _ _ es h
        refine ⟨fun p hp => hacc p (by simp [hp]), ?_⟩
        intro j hj
        rcases List.mem_cons.mp hj with rfl | hj
        · exact hacc (fn, j) (by simp)
        · exact hrest j hj

/-- On a successful run the starting file was read and every one of
its imports produced a recorded edge (even the imports whose target was already
visited). -/
lemma getEdgesF_ok_root (fs : FileSys) (fuel : Nat) (fn : String)
    (vis : List String) (es : List (String × String))
    (h : (getEdgesF fs fuel fn vis).result = .ok es) :
    ∃ c, readFile fs fn = some c ∧ ∀ i ∈ getImports fn c, (fn, i) ∈ es := by
  rcases fuel with _ | fuel
  · simp [getEdgesF] at h
  · rcases hr : readFile fs fn with _ | c
    · simp [getEdgesF, hr] at h
    · refine ⟨c, rfl, ?_⟩
      simp only [getEdgesF, hr] at h
      exact (goEdges_ok_mem (getEdgesF fs fuel) fn (getImports fn c) [] vis [fn] es h).2

lemma goEdges_trace_bound (ge : String → List String → TravOut)
    (hmono : ∀ i vis, vis ⊆ (ge i vis).visited)
    (htb : ∀ i vis m, ((ge i vis).trace.count m) ≤
      (if m = i then 1 else 0) + (if m ∈ (ge i vis).visited ∧ m ∉ vis then 1 else 0))
    (fn : String) :
    ∀ ts edges vis tr m,
      ((goEdges ge fn edges vis tr ts).trace.count m) ≤
        tr.count m +
          (if m ∈ (goEdges ge fn edges vis tr ts).visited ∧ m ∉ vis then 1 else 0) := by
  intro ts
  induction ts with
  | nil =>
    intro edges vis tr m
    simp only [goEdges]
    by_cases hc : m ∈ vis ∧ m ∉ vis
    · exact absurd hc.2 fun h => h hc.1
    · rw [if_neg hc]
      omega
  | cons i rest ih =>
    intro edges vis tr m
    by_cases hi : i ∈ vis
    · simpa [goEdges, hi] using ih _ vis tr m
    · have hsubv : (i :: vis) ⊆ (ge i (i :: vis)).visited := hmono i (i :: vis)
      have hs := htb i (i :: vis) m
      rcases hres : (ge i (i :: vis)).result with e | sess
      · simp only [goEdges, hi, if_false, hres, List.count_append]
        by_cases hmi : m = i
        · subst hmi
          rw [if_pos rfl, if_neg (fun h => h.2 (by simp))] at hs
          rw [if_pos ⟨hsubv (List.mem_cons_self _ _), hi⟩]
          omega
        · rw [if_neg hmi] at hs
          by_cases hsc : m ∈ (ge i (i :: vis)).visited ∧ m ∉ i :: vis
          · rw [if_pos hsc] at hs
            rw [if_pos ⟨hsc.1, fun hv => hsc.2 (List.mem_cons_of_mem _ hv)⟩]
            omega
          · rw [if_neg hsc] at hs
            by_cases hgc : m ∈ (ge i (i :: vis)).visited ∧ m ∉ vis
            · rw [if_pos hgc]; omega
            · rw [if_neg hgc]; omega
      · simp only [goEdges, hi, if_false, hres]
        have ihr := ih (edges ++ [(fn, i)] ++ sess) (ge i (i :: vis)).visited
          (tr ++ (ge i (i :: vis)).trace) m
        rw [List.count_append] at ihr
        have hfin : (ge i (i :: vis)).visited ⊆
            (goEdges ge fn (edges ++ [(fn, i)] ++ sess) (ge i (i :: vis)).visited
              (tr ++ (ge i (i :: vis)).trace) rest).visited :=
          goEdges_visited_mono ge hmono fn rest _ _ _
        by_cases hmi : m = i
        · subst hmi
          rw [if_pos rfl, if_neg (fun h => h.2 (by simp))] at hs
          rw [if_neg (fun h => h.2 (hsubv (List.mem_cons_self _ _)))] at ihr
          rw [if_pos ⟨hfin (hsubv (List.mem_cons_self _ _)), hi⟩]
          omega
        · rw [if_neg hmi] at hs
          by_cases hmsub : m ∈ (ge i (i :: vis)).visited
          · rw [if_neg (fun h => h.2 hmsub)] at ihr
            by_cases hmvis : m ∈ vis
            · rw [if_neg (fun h => h.2 (List.mem_cons_of_mem _ hmvis))] at hs
              rw [if_neg (fun h => h.2 hmvis)]
              omega
            · rw [if_pos ⟨hmsub, by simp [hmi, hmvis]⟩] at hs
              rw [if_pos ⟨hfin hmsub, hmvis⟩]
              omega
          · have hmvis : m ∉ vis := fun h => hmsub (hsubv (List.mem_cons_of_mem _ h))
            rw [if_neg (fun h => hmsub h.1)] at hs
            by_cases hmfin : m ∈ (goEdges ge fn (edges ++ [(fn, i)] ++ sess)
                (ge i (i :: vis)).visited (tr ++ (ge i (i :: vis)).trace) rest).visited
            · rw [if_pos ⟨hmfin, hmsub⟩] at ihr
              rw [if_pos ⟨hmfin, hmvis⟩]
              omega
            · rw [if_neg (fun h => hmfin h.1)] at ihr
              rw [if_neg (fun h => hmfin h.1)]
              omega

/-- Bound on how often a given file is passed to `getImports`: at most once,
except that the starting file itself can additionally be re-extracted once if
it is re-encountered as an import (it is never pre-marked visited). -/
lemma getEdgesF_trace_bound (fs : FileSys) :
    ∀ fuel fn vis m,
      ((getEdgesF fs fuel fn vis).trace.count m) ≤
        (if m = fn then 1 else 0) +
          (if m ∈ (getEdgesF fs fuel fn vis).visited ∧ m ∉ vis then 1 else 0) := by
  intro fuel
  induction fuel with
  | zero =>
    intro fn vis m
    simp [getEdgesF]
  | succ fuel ih =>
    intro fn vis m
    rcases hr : readFile fs fn with _ | c
    · by_cases hmi : m = fn
      · subst hmi; simp [getEdgesF, hr]
      · simp [getEdgesF, hr, List.count_cons, hmi, Ne.symm hmi]
    · simp only [getEdgesF, hr]
      have := goEdges_trace_bound (getEdgesF fs fuel)
        (fun i v => getEdgesF_visited_mono fs fuel i v)
        (fun i v m => ih i v m) fn (getImports fn c) [] vis [fn] m
      have hcnt : List.count m [fn] = if m = fn then 1 else 0 := by
        by_cases hmi : m = fn
        · subst hmi; simp
        · simp [List.count_cons, hmi, Ne.symm hmi]
      rw [hcnt] at this
      exact this

lemma goEdges_error_missing (fs : FileSys) (ge : String → List String → TravOut)
    (hmono : ∀ i vis, vis ⊆ (ge i vis).visited) (fn : String) :
    ∀ ts edges vis tr,
      (∀ i vis', vis ⊆ vis' → i ∉ vis' → ∀ e,
        (ge i (i :: vis')).result = .error e → readFile fs e = none) →
      ∀ e, (goEdges ge fn edges vis tr ts).result = .error e → readFile fs e = none := by
  intro ts
  induction ts with
  | nil => intro edges vis tr _ e h; simp [goEdges] at h
  | cons i rest ih =>
    intro edges vis tr herr e h
    by_cases hi : i ∈ vis
    · exact ih _ vis tr herr e (by simpa [goEdges, hi] using h)
    · rcases hres : (ge i (i :: vis)).result with e' | sess
      · simp only [goEdges, hi, if_false, hres] at h
        obtain rfl : e' = e := by simpa using h
        exact herr i vis (fun a ha => ha) hi _ hres
      · simp only [goEdges, hi, if_false, hres] at h
        have hvis : vis ⊆ (ge i (i :: vis)).visited := fun a ha =>
          hmono i (i :: vis) (List.mem_cons_of_mem _ ha)
        exact ih _ _ _ (fun j v' hv' hj => herr j v' (fun a ha => hv' (hvis ha)) hj) e h

/-- Every error the traversal propagates names a file that cannot be read:
the `IOError` of `getImports` is passed through unchanged. -/
lemma getEdgesF_error_missing (fs : FileSys) :
    ∀ fuel fn vis e, unvisitedCount fs vis + 2 ≤ fuel →
      (getEdgesF fs fuel fn vis).result = .error e → readFile fs e = none := by
  intro fuel
  induction fuel with
  | zero => intro fn vis e h₁; omega
  | succ fuel ih =>
    intro fn vis e hb h
    rcases hr : readFile fs fn with _ | c
    · simp only [getEdgesF, hr] at h
      obtain rfl : fn = e := by simpa using h
      exact hr
    · simp only [getEdgesF, hr] at h
      refine goEdges_error_missing fs (getEdgesF fs fuel)
        (fun i v => getEdgesF_visited_mono fs fuel i v) fn
        (getImports fn c) [] vis [fn] ?_ e h
      intro i vis' hvv hi e' he'
      rcases hri : readFile fs i with _ | ci
      · rcases fuel with _ | fuel'
        · omega
        · simp only [getEdgesF, hri] at he'
          obtain rfl : i = e' := by simpa using he'
          exact hri
      · have hlt : unvisitedCount fs (i :: vis') < unvisitedCount fs vis :=
          lt_of_lt_of_le (unvisitedCount_cons_lt hi hri) (unvisitedCount_mono fs hvv)
        exact ih i (i :: vis') e' (by omega) he'

lemma goEdges_ok_closed (fs : FileSys) (ge : String → List String → TravOut)
    (hmono : ∀ i vis, vis ⊆ (ge i vis).visited) (fn : String) :
    ∀ ts edges vis tr es,
      (∀ i vis', vis ⊆ vis' → i ∉ vis' → ∀ sess,
        (ge i (i :: vis')).result = .ok sess →
        (∃ c, readFile fs i = some c ∧
          ∀ j ∈ getImports i c, j ∈ (ge i (i :: vis')).visited) ∧
        (∀ x ∈ (ge i (i :: vis')).visited, x ∉ i :: vis' →
          ∃ cx, readFile fs x = some cx ∧
            ∀ j ∈ getImports x cx, j ∈ (ge i (i :: vis')).visited)) →
      (goEdges ge fn edges vis tr ts).result = .ok es →
      (∀ i ∈ ts, i ∈ (goEdges ge fn edges vis tr ts).visited) ∧
      (∀ x ∈ (goEdges ge fn edges vis tr ts).visited, x ∉ vis →
        ∃ cx, readFile fs x = some cx ∧
          ∀ j ∈ getImports x cx, j ∈ (goEdges ge fn edges vis tr ts).visited) := by
  intro ts
  induction ts with
  | nil =>
    intro edges vis tr es _ _
    refine ⟨by simp, ?_⟩
    intro x hx hxv
    simp only [goEdges] at hx
    exact absurd hx hxv
  | cons i rest ih =>
    intro edges vis tr es hok h
    by_cases hi : i ∈ vis
    · simp only [goEdges, hi, if_true] at h ⊢
      obtain ⟨hts, hcl⟩ := ih _ vis tr es hok h
      refine ⟨?_, hcl⟩
      intro j hj
      rcases List.mem_cons.mp hj with rfl | hj
      · exact goEdges_visited_mono ge hmono fn rest _ vis tr hi
      · exact hts j hj
    · rcases hres : (ge i (i :: vis)).result with e' | sess
      · simp [goEdges, hi, hres] at h
      · simp only [goEdges, hi, if_false, hres] at h ⊢
        have hsubv : (i :: vis) ⊆ (ge i (i :: vis)).visited := hmono i (i :: vis)
        have hvis : vis ⊆ (ge i (i :: vis)).visited := fun a ha =>
          hsubv (List.mem_cons_of_mem _ ha)
        obtain ⟨hroot, hcl₁⟩ := hok i vis (fun a ha => ha) hi sess hres
        have hok' : ∀ j vis', (ge i (i :: vis)).visited ⊆ vis' → j ∉ vis' → ∀ sess',
            (ge j (j :: vis')).result = .ok sess' →
            (∃ c, readFile fs j = some c ∧
              ∀ k ∈ getImports j c, k ∈ (ge j (j :: vis')).visited) ∧
            (∀ x ∈ (ge j (j :: vis')).visited, x ∉ j :: vis' →
              ∃ cx, readFile fs x = some cx ∧
                ∀ k ∈ getImports x cx, k ∈ (ge j (j :: vis')).visited) :=
          fun j v' hv' hj => hok j v' (fun a ha => hv' (hvis ha)) hj
        obtain ⟨hts, hcl₂⟩ := ih _ _ _ es hok' h
        have hfin : (ge i (i :: vis)).visited ⊆
            (goEdges ge fn (edges ++ [(fn, i)] ++ sess) (ge i (i :: vis)).visited
              (tr ++ (ge i (i :: vis)).trace) rest).visited :=
          goEdges_visited_mono ge hmono fn rest _ _ _
        refine ⟨?_, ?_⟩
        · intro j hj
          rcases List.mem_cons.mp hj with rfl | hj
          · exact hfin (hsubv (List.mem_cons_self _ _))
          · exact hts j hj
        · intro x hx hxv
          by_cases hxsub : x ∈ (ge i (i :: vis)).visited
          · by_cases hxi : x = i
            · subst hxi
              obtain ⟨c, hc, hcl⟩ := hroot
              exact ⟨c, hc, fun j hj => hfin (hcl j hj)⟩
            · obtain ⟨cx, hcx, hcl⟩ := hcl₁ x hxsub (by simp [hxi, hxv])
              exact ⟨cx, hcx, fun j hj => hfin (hcl j hj)⟩
          · exact hcl₂ x hx hxsub

/-- On a successful traversal, every newly visited file (and the root) was
readable and all its imports were themselves marked visited. -/
lemma getEdgesF_ok_closed (fs : FileSys) :
    ∀ fuel fn vis es, (getEdgesF fs fuel fn vis).result = .ok es →
      (∃ c, readFile fs fn = some c ∧
        ∀ i ∈ getImports fn c, i ∈ (getEdgesF fs fuel fn vis).visited) ∧
      (∀ x ∈ (getEdgesF fs fuel fn vis).visited, x ∉ vis →
        ∃ cx, readFile fs x = some cx ∧
          ∀ i ∈ getImports x cx, i ∈ (getEdgesF fs fuel fn vis).visited) := by
  intro fuel
  induction fuel with
  | zero => intro fn vis es h; simp [getEdgesF] at h
  | succ fuel ih =>
    intro fn vis es h
    rcases hr : readFile fs fn with _ | c
    · simp [getEdgesF, hr] at h
    · simp only [getEdgesF, hr] at h ⊢
      have hok : ∀ i vis', vis ⊆ vis' → i ∉ vis' → ∀ sess,
          (getEdgesF fs fuel i (i :: vis')).result = .ok sess →
          (∃ ci, readFile fs i = some ci ∧
            ∀ j ∈ getImports i ci, j ∈ (getEdgesF fs fuel i (i :: vis')).visited) ∧
          (∀ x ∈ (getEdgesF fs fuel i (i :: vis')).visited, x ∉ i :: vis' →
            ∃ cx, readFile fs x = some cx ∧
              ∀ j ∈ getImports x cx, j ∈ (getEdgesF fs fuel i (i :: vis')).visited) :=
        fun i vis' _ _ sess hs =>
          ⟨(ih i (i :: vis') sess hs).1, fun x hx hxv => (ih i (i :: vis') sess hs).2 x hx hxv⟩
      obtain ⟨hts, hcl⟩ := goEdges_ok_closed fs (getEdgesF fs fuel)
        (fun i v => getEdgesF_visited_mono fs fuel i v) fn
        (getImports fn c) [] vis [fn] es hok h
      exact ⟨⟨c, rfl, hts⟩, hcl⟩

/-- One step of the import relation: `a` can be read and directly imports
`b`. -/
def importStep (fs : FileSys) (a b : String) : Prop :=
  ∃ c, readFile fs a = some c ∧ b ∈ getImports a c

/-- The modules reachable from the entry point through import chains of
readable files. -/
def ImportReach (fs : FileSys) : String → String → Prop :=
  Relation.ReflTransGen (importStep fs)

/-- If the traversal succeeds, every module reachable from the start was
readable (so a reachable unreadable module forces an error). -/
lemma getEdges_ok_reachable (fs : FileSys) (entry : String)
    (es : List (String × String)) (h : getEdges fs entry = .ok es) :
    ∀ m, ImportReach fs entry m → ∃ c, readFile fs m = some c := by
  have hcl := getEdgesF_ok_closed fs (edgeFuel fs) entry [] es h
  intro m hm
  have : (∃ c, readFile fs m = some c) ∧
      (m ∈ (getEdgesF fs (edgeFuel fs) entry []).visited ∨ m = entry) := by
    induction hm with
    | refl => exact ⟨⟨hcl.1.choose, hcl.1.choose_spec.1⟩, Or.inr rfl⟩
    | tail hz hstep ihz =>
      obtain ⟨⟨cz, hcz⟩, hzin⟩ := ihz
      obtain ⟨cz', hcz', hmem⟩ := hstep
      rename_i z m'
      have himp : ∀ j ∈ getImports z cz', j ∈ (getEdgesF fs (edgeFuel fs) entry []).visited := by
        rcases hzin with hzin | rfl
        · obtain ⟨cx, hcx, hj⟩ := hcl.2 _ hzin (by simp)
          rw [hcx] at hcz'
          obtain rfl : cx = cz' := by injection hcz'
          exact hj
        · obtain ⟨c, hc, hj⟩ := hcl.1
          rw [hc] at hcz'
          obtain rfl : c = cz' := by injection hcz'
          exact hj
      have hmvis := himp _ hmem
      obtain ⟨cm, hcm, _⟩ := hcl.2 _ hmvis (by simp)
      exact ⟨⟨cm, hcm⟩, Or.inl hmvis⟩
  exact this.1

/-- Vertex-set membership of a constructed graph: exactly the edge heads, the
edge tails and the extra vertices passed to the constructor. -/
lemma mem_ofEdges_vertices (edges : List (String × String)) (extra : List String)
    (v : String) :
    v ∈ (Graph.ofEdges edges extra).vertices ↔
      (∃ e ∈ edges, v = e.1 ∨ v = e.2) ∨ v ∈ extra := by
  simp only [Graph.ofEdges, List.mem_dedup, List.mem_append, List.mem_flatMap,
    List.mem_cons, List.mem_singleton]
  constructor
  · rintro (⟨e, he, hv⟩ | hv)
    · exact Or.inl ⟨e, he, by tauto⟩
    · exact Or.inr hv
  · rintro (⟨e, he, hv⟩ | hv)
    · exact Or.inl ⟨e, he, by tauto⟩
    · exact Or.inr hv

/-- A mutually importing pair used as a concrete test filesystem. -/
def fsEA : FileSys :=
  [("E", "import x " ++ qm ++ "A" ++ qm ++ ";"),
   ("A", "import x " ++ qm ++ "E" ++ qm ++ ";")]

/-- An entry point with no import lines at all. -/
def fsE0 : FileSys := [("E", "")]

/-- An entry point importing a file that does not exist. -/
def fsEB : FileSys := [("E", "import x " ++ qm ++ "B" ++ qm ++ ";")]

/-! ### Claim theorems about extraction and traversal -/

/-- Claim C7: `getImports` returns, in line order and with duplicates kept,
one entry per matching line, each being the captured raw path joined to the
module's directory and normalized; a file with no matching line yields the
empty list rather than an error. -/
theorem getImports_spec (fn contents : String) :
    getImports fn contents =
      ((splitChar '\n' contents.data).filterMap matchImportLine).map
        (fun raw => normpath (pathJoin (dirname fn) (String.mk raw))) ∧
    ((∀ l ∈ splitChar '\n' contents.data, matchImportLine l = none) →
      getImports fn contents = []) := by
  refine ⟨rfl, fun h => ?_⟩
  simp only [getImports]
  rw [List.filterMap_eq_nil_iff.mpr h]
  rfl

/-- Witness for C7: a concrete file with no import lines yields `[]`, and a
two-line file with a duplicated import line yields both copies, resolved. -/
theorem getImports_spec_witness :
    getImports "E" "no imports here" = [] ∧
    getImports "lib/t.js"
        ("import x " ++ qm ++ "../a.js" ++ qm ++ ";\nimport x " ++ qm ++ "../a.js" ++ qm ++ ";") =
      ["a.js", "a.js"] := by
  constructor
  · exact (getImports_spec "E" "no imports here").2 (by decide)
  · have h := (getImports_spec "lib/t.js"
      ("import x " ++ qm ++ "../a.js" ++ qm ++ ";\nimport x " ++ qm ++ "../a.js" ++ qm ++ ";")).1
    rw [h]
    decide

/-- Claim C5 (termination of `getEdges` and edge recording): the fueled
unfolding of the recursion is stable once the fuel exceeds the number of
unvisited files by two — the recursion terminates on every finite filesystem,
cyclic imports included — and on a successful run the edge into an
already-visited import is still recorded. -/
theorem getEdges_terminates (fs : FileSys) (fn : String) (vis : List String)
    (f₁ f₂ : Nat) (h₁ : unvisitedCount fs vis + 2 ≤ f₁)
    (h₂ : unvisitedCount fs vis + 2 ≤ f₂) :
    getEdgesF fs f₁ fn vis = getEdgesF fs f₂ fn vis ∧
    ∀ es c i, getEdges fs fn = Except.ok es → readFile fs fn = some c →
      i ∈ getImports fn c → (fn, i) ∈ es := by
  refine ⟨getEdgesF_fuel_congr fs f₁ f₂ fn vis h₁ h₂, ?_⟩
  intro es c i hok hc hi
  obtain ⟨c', hc', hrec⟩ := getEdgesF_ok_root fs (edgeFuel fs) fn [] es hok
  rw [hc] at hc'
  obtain rfl : c = c' := by injection hc'
  exact hrec i hi

/-- Witness for C5 on the cyclic two-file system: fuels 4 and 7 agree, and the
edge `("A", "E")` back into the already-visited entry is recorded. -/
theorem getEdges_terminates_witness :
    getEdgesF fsEA 4 "E" [] = getEdgesF fsEA 7 "E" [] ∧ ("E", "A") ∈
      [(("E" : String), ("A" : String)), ("A", "E"), ("E", "A")] := by
  constructor
  · exact (getEdges_terminates fsEA "E" [] 4 7 (by decide) (by decide)).1
  · exact (getEdges_terminates fsEA "E" [] 4 7 (by decide) (by decide)).2
      [("E", "A"), ("A", "E"), ("E", "A")] ("import x " ++ qm ++ "A" ++ qm ++ ";") "A"
      rfl rfl (by decide)

/-- Counterexample to claim C3 as stated: on the mutually importing pair the
entry point's imports are extracted twice (the entry point is never marked
visited, so the cycle back to it descends into it a second time). -/
theorem entry_reextracted_counterexample :
    ((getEdgesT fsEA "E").trace.count "E") = 2 ∧ ¬((getEdgesT fsEA "E").trace.count "E") ≤ 1 := by
  constructor
  · decide
  · decide

/-- Amended claim C3: during a traversal every module other than the starting
module is passed to the import extractor at most once; the starting module
itself at most twice (once at the start, at most once more when a cycle leads
back to it, after which it is marked visited). -/
theorem getEdges_extraction_bound (fs : FileSys) (entry m : String) :
    ((getEdgesT fs entry).trace.count m) ≤ if m = entry then 2 else 1 := by
  have h := getEdgesF_trace_bound fs (edgeFuel fs) entry [] m
  by_cases hme : m = entry
  · rw [if_pos hme] at h ⊢
    by_cases hc : m ∈ (getEdgesF fs (edgeFuel fs) entry []).visited ∧ m ∉ ([] : List String)
    · rw [if_pos hc] at h; exact le_trans h (by omega)
    · rw [if_neg hc] at h; exact le_trans h (by omega)
  · rw [if_neg hme] at h ⊢
    by_cases hc : m ∈ (getEdgesF fs (edgeFuel fs) entry []).visited ∧ m ∉ ([] : List String)
    · rw [if_pos hc] at h; exact le_trans h (by omega)
    · rw [if_neg hc] at h; exact le_trans h (by omega)

/-- Counterexample to claim C4 as stated: when the entry point has no imports
the edge list is empty, the graph handed to the SCC engine has an empty vertex
set (the entry point is not added, since `Graph(edges)` is called without the
`vertices` argument), the run succeeds, and the entry point is in no returned
component. -/
theorem entry_not_vertex_counterexample :
    getEdges fsE0 "E" = Except.ok [] ∧
    "E" ∉ (Graph.ofEdges [] []).vertices ∧
    runComponents fsE0 "E" = Except.ok [] := by
  refine ⟨rfl, by decide, rfl⟩

/-- Amended claim C4: the vertex set of the graph handed to the SCC engine is
exactly the set of heads and tails of the recorded edges (no entry point is
added); in particular the entry point is a vertex whenever it has at least
one import, since its first import yields an edge with the entry point as head. -/
theorem graph_vertices_spec (fs : FileSys) (entry : String)
    (es : List (String × String)) (c : String)
    (h1 : getEdges fs entry = Except.ok es) (h2 : readFile fs entry = some c) :
    (∀ v, v ∈ (Graph.ofEdges es []).vertices ↔ ∃ e ∈ es, v = e.1 ∨ v = e.2) ∧
    ∀ i ∈ getImports entry c, entry ∈ (Graph.ofEdges es []).vertices := by
  constructor
  · intro v
    rw [mem_ofEdges_vertices]
    simp
  · intro i hi
    obtain ⟨c', hc', hrec⟩ := getEdgesF_ok_root fs (edgeFuel fs) entry [] es h1
    rw [h2] at hc'
    obtain rfl : c = c' := by injection hc'
    rw [mem_ofEdges_vertices]
    exact Or.inl ⟨(entry, i), hrec i hi, Or.inl rfl⟩

/-- Witness for the amended C4 on the mutually importing pair: the entry point
is a vertex of the run's graph. -/
theorem graph_vertices_spec_witness :
    "E" ∈ (Graph.ofEdges [(("E" : String), ("A" : String)), ("A", "E"), ("E", "A")] []).vertices := by
  exact (graph_vertices_spec fsEA "E" [("E", "A"), ("A", "E"), ("E", "A")]
    ("import x " ++ qm ++ "A" ++ qm ++ ";") rfl rfl).2 "A" (by decide)

/-- Claim C8: if any module reachable through the import chain cannot be read,
the whole run fails with that `IOError`: the traversal propagates it, no
components are computed and nothing is printed. -/
theorem run_aborts_on_unreadable (fs : FileSys) (entry : String)
    (h : ∃ m, ImportReach fs entry m ∧ readFile fs m = none) :
    ∃ e, getEdges fs entry = Except.error e ∧ runComponents fs entry = Except.error e ∧
      runOutput fs entry = Except.error e ∧ readFile fs e = none := by
  rcases hge : getEdges fs entry with e | es
  · refine ⟨e, rfl, ?_, ?_, ?_⟩
    · simp [runComponents, hge, Except.map]
    · simp [runOutput, runComponents, hge, Except.map]
    · refine getEdgesF_error_missing fs (edgeFuel fs) entry [] e ?_ hge
      have : unvisitedCount fs [] ≤ fs.length := by
        simp [unvisitedCount]
      simp only [edgeFuel]
      omega
  · obtain ⟨m, hm, hnone⟩ := h
    obtain ⟨c, hc⟩ := getEdges_ok_reachable fs entry es hge m hm
    rw [hc] at hnone
    exact absurd hnone (by simp)

/-- Witness for C8: the entry point imports a missing file `B`; the run fails
with the error naming `B` and prints nothing. -/
theorem run_aborts_on_unreadable_witness :
    ∃ e, getEdges fsEB "E" = Except.error e ∧ runComponents fsEB "E" = Except.error e ∧
      runOutput fsEB "E" = Except.error e ∧ readFile fsEB e = none := by
  refine run_aborts_on_unreadable fsEB "E" ⟨"B", ?_, rfl⟩
  exact Relation.ReflTransGen.single
    ⟨"import x " ++ qm ++ "B" ++ qm ++ ";", rfl, by decide⟩

/-! ### The SCC engine: reachability and basic state lemmas -/

/-- One directed edge of the graph, in adjacency form. -/
def gstep (g : Graph) (a b : String) : Prop := b ∈ g.tails a

/-- Reachability along directed edges. -/
def Reach (g : Graph) : String → String → Prop := Relation.ReflTransGen (gstep g)

/-- Discovered vertices: the keys of `count`. -/
def Dm (σ : St) (v : String) : Prop := σ.count.lookup v ≠ none

lemma seen_iff_Dm (σ : St) (v : String) : seen σ v = true ↔ Dm σ v := by
  simp [seen, Dm, Option.isSome_iff_ne_none]

lemma reach_refl (g : Graph) (v : String) : Reach g v v := Relation.ReflTransGen.refl

lemma reach_trans {g : Graph} {a b c : String} (h₁ : Reach g a b) (h₂ : Reach g b c) :
    Reach g a c := Relation.ReflTransGen.trans h₁ h₂

lemma reach_step {g : Graph} {a b : String} (h : gstep g a b) : Reach g a b :=
  Relation.ReflTransGen.single h

lemma Dm_setLow (σ : St) (h : String) (n : Nat) (x : String) :
    Dm (setLow σ h n) x ↔ Dm σ x := Iff.rfl

lemma numD_setLow (σ : St) (h : String) (n : Nat) (x : String) :
    numD (setLow σ h n) x = numD σ x := rfl

lemma lowD_setLow_same (σ : St) (h : String) (n : Nat) :
    lowD (setLow σ h n) h = n := by
  simp [lowD, setLow, List.lookup]

lemma lowD_setLow_other (σ : St) (h : String) (n : Nat) (x : String) (hx : x ≠ h) :
    lowD (setLow σ h n) x = lowD σ x := by
  simp only [lowD, setLow, List.lookup]
  rw [show (x == h) = false from beq_eq_false_iff_ne.mpr hx]

lemma stack_setLow (σ : St) (h : String) (n : Nat) : (setLow σ h n).stack = σ.stack := rfl

lemma comps_setLow (σ : St) (h : String) (n : Nat) : (setLow σ h n).comps = σ.comps := rfl

lemma counter_setLow (σ : St) (h : String) (n : Nat) :
    (setLow σ h n).counter = σ.counter := rfl

lemma count_setLow (σ : St) (h : String) (n : Nat) :
    (setLow σ h n).count = σ.count := rfl

lemma Dm_discover (σ : St) (v x : String) :
    Dm (discover σ v) x ↔ x = v ∨ Dm σ x := by
  simp only [Dm, discover, List.lookup]
  rcases hxv : (x == v) with _ | _
  · simp [beq_eq_false_iff_ne.mp hxv]
  · simp [eq_of_beq hxv]

lemma numD_discover_same (σ : St) (v : String) :
    numD (discover σ v) v = σ.counter + 1 := by
  simp [numD, discover, List.lookup]

lemma numD_discover_other (σ : St) (v x : String) (hx : x ≠ v) :
    numD (discover σ v) x = numD σ x := by
  simp only [numD, discover, List.lookup]
  rw [show (x == v) = false from beq_eq_false_iff_ne.mpr hx]

lemma lowD_discover_same (σ : St) (v : String) :
    lowD (discover σ v) v = σ.counter + 1 := by
  simp [lowD, discover, List.lookup]

lemma lowD_discover_other (σ : St) (v x : String) (hx : x ≠ v) :
    lowD (discover σ v) x = lowD σ x := by
  simp only [lowD, discover, List.lookup]
  rw [show (x == v) = false from beq_eq_false_iff_ne.mpr hx]

lemma count_lookup_discover_other (σ : St) (v x : String) (hx : x ≠ v) :
    (discover σ v).count.lookup x = σ.count.lookup x := by
  simp only [discover, List.lookup]
  rw [show (x == v) = false from beq_eq_false_iff_ne.mpr hx]

lemma low_lookup_discover_other (σ : St) (v x : String) (hx : x ≠ v) :
    (discover σ v).lowlink.lookup x = σ.lowlink.lookup x := by
  simp only [discover, List.lookup]
  rw [show (x == v) = false from beq_eq_false_iff_ne.mpr hx]

/-! Fuel stabilization for `strong_connect`.  The measure is the number of
vertices not yet discovered. -/

/-- Undiscovered-vertex count, the decreasing measure of `strong_connect`. -/
def muSC (g : Graph) (σ : St) : Nat :=
  ((g.vertices).filter fun x => !(seen σ x)).length

/-- All vertices the adjacency map can produce lie in the vertex list; true
for every graph built by the constructor. -/
def TailsClosed (g : Graph) : Prop := ∀ a, ∀ b ∈ g.tails a, b ∈ g.vertices

/-- All discovered vertices lie in the vertex list. -/
def DClosed (g : Graph) (σ : St) : Prop := ∀ x, Dm σ x → x ∈ g.vertices

lemma tailsClosed_ofEdges (edges : List (String × String)) (extra : List String) :
    TailsClosed (Graph.ofEdges edges extra) := by
  intro a b hb
  simp only [Graph.tails, List.mem_map, List.mem_filter] at hb
  obtain ⟨e, ⟨he, _⟩, rfl⟩ := hb
  exact (mem_ofEdges_vertices edges extra e.2).mpr (Or.inl ⟨e, he, Or.inr rfl⟩)

lemma nodup_ofEdges (edges : List (String × String)) (extra : List String) :
    (Graph.ofEdges edges extra).vertices.Nodup := List.nodup_dedup _

lemma length_filter_lt {α : Type} (p q : α → Bool) (l : List α) (v : α)
    (hv : v ∈ l) (hpv : p v = true) (hqv : q v = false)
    (himp : ∀ a, q a = true → p a = true) :
    (l.filter q).length < (l.filter p).length := by
  induction l with
  | nil => simp at hv
  | cons a t ih =>
    by_cases hav : a = v
    · subst hav
      rw [List.filter_cons_of_neg (by simp [hqv]), List.filter_cons_of_pos hpv]
      exact Nat.lt_succ_of_le (length_filter_mono p q t himp)
    · have hvt : v ∈ t := by
        rcases List.mem_cons.mp hv with h | h
        · exact absurd h.symm hav
        · exact h
      by_cases hqa : q a = true
      · rw [List.filter_cons_of_pos hqa, List.filter_cons_of_pos (himp a hqa)]
        exact Nat.succ_lt_succ (ih hvt)
      · rw [List.filter_cons_of_neg (by simpa using hqa)]
        by_cases hpa : p a = true
        · rw [List.filter_cons_of_pos hpa]
          exact Nat.lt_succ_of_lt (ih hvt)
        · rw [List.filter_cons_of_neg (by simpa using hpa)]
          exact ih hvt

lemma muSC_mono (g : Graph) {σ σ' : St} (h : ∀ x, Dm σ x → Dm σ' x) :
    muSC g σ' ≤ muSC g σ := by
  apply length_filter_mono
  intro a ha
  simp only [Bool.not_eq_true'] at ha ⊢
  rcases hsa : seen σ a with _ | _
  · rfl
  · exact absurd (h a ((seen_iff_Dm σ a).mp hsa))
      (fun hd => by rw [(seen_iff_Dm σ' a).mpr hd] at ha; exact Bool.true_eq_false.mp ha)

lemma muSC_discover_lt (g : Graph) (σ : St) (v : String)
    (hv : v ∈ g.vertices) (hnew : ¬ Dm σ v) :
    muSC g (discover σ v) < muSC g σ := by
  apply length_filter_lt _ _ _ v hv
  · rcases hsv : seen σ v with _ | _
    · simp
    · exact absurd ((seen_iff_Dm σ v).mp hsv) hnew
  · have : Dm (discover σ v) v := (Dm_discover σ v v).mpr (Or.inl rfl)
    rw [(seen_iff_Dm _ v).mpr this]
    rfl
  · intro a ha
    simp only [Bool.not_eq_true'] at ha ⊢
    rcases hsa : seen σ a with _ | _
    · rfl
    · have : Dm (discover σ v) a := (Dm_discover σ v a).mpr (Or.inr ((seen_iff_Dm σ a).mp hsa))
      rw [(seen_iff_Dm _ a).mpr this] at ha
      exact absurd ha (by simp)

lemma muSC_pos (g : Graph) (σ : St) (v : String) (hv : v ∈ g.vertices)
    (hnew : ¬ Dm σ v) : 0 < muSC g σ := by
  have hmem : v ∈ (g.vertices).filter fun x => !(seen σ x) := by
    refine List.mem_filter.mpr ⟨hv, ?_⟩
    rcases hsv : seen σ v with _ | _
    · simp
    · exact absurd ((seen_iff_Dm σ v).mp hsv) hnew
  exact List.length_pos.mpr (List.ne_nil_of_mem hmem)

lemma Dm_popRoot (σ : St) (h : String) (x : String) :
    Dm (popRoot σ h) x ↔ Dm σ x := by
  by_cases hc : lowD σ h = numD σ h <;> simp [popRoot, hc, Dm]

lemma visitTails_Dm_mono (g : Graph) (sc : St → String → St)
    (hsc : ∀ σ t x, Dm σ x → Dm (sc σ t) x) (head : String) :
    ∀ ts σ x, Dm σ x → Dm (visitTails g sc head σ ts) x := by
  intro ts
  induction ts with
  | nil => intro σ x hx; exact hx
  | cons t rest ih =>
    intro σ x hx
    rcases hct : σ.count.lookup t with _ | ct
    · simp only [visitTails, hct]
      exact ih _ x (hsc σ t x hx)
    · simp only [visitTails, hct]
      by_cases h1 : ct < numD σ head
      · by_cases h2 : t ∈ σ.stack
        · simp only [h1, if_true, h2]
          exact ih _ x hx
        · simp only [h1, if_true, h2, if_false]
          exact ih _ x hx
      · simp only [h1, if_false]
        exact ih _ x hx

lemma scF_Dm_mono (g : Graph) :
    ∀ fuel σ v x, Dm σ x → Dm (strongConnectF g fuel σ v) x := by
  intro fuel
  induction fuel with
  | zero => intro σ v x hx; exact hx
  | succ fuel ih =>
    intro σ v x hx
    simp only [strongConnectF]
    rw [Dm_popRoot]
    exact visitTails_Dm_mono g _ (fun σ' t x' hx' => ih σ' t x' hx') v (g.tails v)
      (discover σ v) x ((Dm_discover σ v x).mpr (Or.inr hx))

lemma visitTails_DClosed (g : Graph) (sc : St → String → St)
    (hsc : ∀ σ t, DClosed g σ → t ∈ g.vertices → DClosed g (sc σ t)) (head : String) :
    ∀ ts σ, DClosed g σ → (∀ t ∈ ts, t ∈ g.vertices) →
      DClosed g (visitTails g sc head σ ts) := by
  intro ts
  induction ts with
  | nil => intro σ hσ _; exact hσ
  | cons t rest ih =>
    intro σ hσ hts
    rcases hct : σ.count.lookup t with _ | ct
    · simp only [visitTails, hct]
      exact ih _ (hsc σ t hσ (hts t (by simp))) (fun t' ht' => hts t' (by simp [ht']))
    · simp only [visitTails, hct]
      by_cases h1 : ct < numD σ head
      · by_cases h2 : t ∈ σ.stack
        · simp only [h1, if_true, h2]
          exact ih _ hσ (fun t' ht' => hts t' (by simp [ht']))
        · simp only [h1, if_true, h2, if_false]
          exact ih _ hσ (fun t' ht' => hts t' (by simp [ht']))
      · simp only [h1, if_false]
        exact ih _ hσ (fun t' ht' => hts t' (by simp [ht']))

lemma DClosed_popRoot (g : Graph) (σ : St) (h : String) (hσ : DClosed g σ) :
    DClosed g (popRoot σ h) := by
  intro x hx
  rw [Dm_popRoot] at hx
  exact hσ x hx

lemma scF_DClosed (g : Graph) (hTC : TailsClosed g) :
    ∀ fuel σ v, DClosed g σ → v ∈ g.vertices → DClosed g (strongConnectF g fuel σ v) := by
  intro fuel
  induction fuel with
  | zero => intro σ v hσ _; exact hσ
  | succ fuel ih =>
    intro σ v hσ hv
    simp only [strongConnectF]
    apply DClosed_popRoot
    apply visitTails_DClosed g _ (fun σ' t hσ' ht => ih σ' t hσ' ht) v (g.tails v)
    · intro x hx
      rcases (Dm_discover σ v x).mp hx with rfl | hx
      · exact hv
      · exact hσ x hx
    · exact fun t ht => hTC v t ht

lemma visitTails_congr (g : Graph) (sc₁ sc₂ : St → String → St) (head : String) :
    ∀ ts σ,
      (∀ σ' t, (∀ x, Dm σ x → Dm σ' x) → DClosed g σ' → ¬ Dm σ' t → t ∈ g.vertices →
        sc₁ σ' t = sc₂ σ' t) →
      (∀ σ' t x, Dm σ' x → Dm (sc₁ σ' t) x) →
      (∀ σ' t, DClosed g σ' → t ∈ g.vertices → DClosed g (sc₁ σ' t)) →
      DClosed g σ → (∀ t ∈ ts, t ∈ g.vertices) →
      visitTails g sc₁ head σ ts = visitTails g sc₂ head σ ts := by
  intro ts
  induction ts with
  | nil => intro σ _ _ _ _ _; rfl
  | cons t rest ih =>
    intro σ hcong hmono hDC hσ hts
    rcases hct : σ.count.lookup t with _ | ct
    · have hnew : ¬ Dm σ t := by simp [Dm, hct]
      have hEq : sc₁ σ t = sc₂ σ t :=
        hcong σ t (fun x hx => hx) hσ hnew (hts t (by simp))
      simp only [visitTails, hct, ← hEq]
      apply ih
      · intro σ' t' hmon' hDC' hnew' ht'
        exact hcong σ' t' (fun x hx => hmon' x (hmono σ t x hx)) hDC' hnew' ht'
      · exact hmono
      · exact hDC
      · exact fun x hx => hDC σ t hσ (hts t (by simp)) x hx
      · exact fun t' ht' => hts t' (by simp [ht'])
    · simp only [visitTails, hct]
      by_cases h1 : ct < numD σ head
      · by_cases h2 : t ∈ σ.stack
        · simp only [h1, if_true, h2]
          exact ih _ hcong hmono hDC hσ (fun t' ht' => hts t' (by simp [ht']))
        · simp only [h1, if_true, h2, if_false]
          exact ih _ hcong hmono hDC hσ (fun t' ht' => hts t' (by simp [ht']))
      · simp only [h1, if_false]
        exact ih _ hcong hmono hDC hσ (fun t' ht' => hts t' (by simp [ht']))

lemma scF_fuel_congr (g : Graph) (hTC : TailsClosed g) :
    ∀ f₁ f₂ σ v, DClosed g σ → v ∈ g.vertices → ¬ Dm σ v →
      muSC g σ ≤ f₁ → muSC g σ ≤ f₂ →
      strongConnectF g f₁ σ v = strongConnectF g f₂ σ v := by
  intro f₁
  induction f₁ with
  | zero =>
    intro f₂ σ v hσ hv hnew h₁ _
    exact absurd h₁ (by have := muSC_pos g σ v hv hnew; omega)
  | succ f₁ ih =>
    intro f₂ σ v hσ hv hnew h₁ h₂
    rcases f₂ with _ | f₂
    · exact absurd h₂ (by have := muSC_pos g σ v hv hnew; omega)
    simp only [strongConnectF]
    have hσ1 : DClosed g (discover σ v) := by
      intro x hx
      rcases (Dm_discover σ v x).mp hx with rfl | hx
      · exact hv
      · exact hσ x hx
    have hmu1 : muSC g (discover σ v) < muSC g σ := muSC_discover_lt g σ v hv hnew
    have hloop : visitTails g (strongConnectF g f₁) v (discover σ v) (g.tails v) =
        visitTails g (strongConnectF g f₂) v (discover σ v) (g.tails v) := by
      apply visitTails_congr g _ _ v (g.tails v) (discover σ v) ?_
        (fun σ' t x hx => scF_Dm_mono g f₁ σ' t x hx)
        (fun σ' t hσ' ht => scF_DClosed g hTC f₁ σ' t hσ' ht) hσ1
        (fun t ht => hTC v t ht)
      intro σ' t hmon' hDC' hnew' ht
      have hmu' : muSC g σ' ≤ muSC g (discover σ v) := muSC_mono g hmon'
      exact ih f₂ σ' t hDC' ht hnew' (by omega) (by omega)
    rw [hloop]

/-- The big-fuel wrapper: the value `strong_connect` actually computes.  The
fuel `sccFuel g` always suffices. -/
lemma strongConnect_eq (g : Graph) (hTC : TailsClosed g) (σ : St) (v : String)
    (hσ : DClosed g σ) (hv : v ∈ g.vertices) (hnew : ¬ Dm σ v) :
    strongConnectF g (sccFuel g) σ v =
      popRoot (visitTails g (fun σ' t => strongConnectF g (sccFuel g) σ' t) v
        (discover σ v) (g.tails v)) v := by
  have hμ : muSC g σ ≤ g.vertices.length := List.length_filter_le _ _
  have hunf : strongConnectF g (sccFuel g) σ v =
      popRoot (visitTails g (strongConnectF g g.vertices.length) v
        (discover σ v) (g.tails v)) v := rfl
  rw [hunf]
  congr 1
  apply visitTails_congr g _ _ v (g.tails v) (discover σ v) ?_
    (fun σ' t x hx => scF_Dm_mono g _ σ' t x hx)
    (fun σ' t hσ' ht => scF_DClosed g hTC _ σ' t hσ' ht)
    (fun x hx => by
      rcases (Dm_discover σ v x).mp hx with rfl | hx
      · exact hv
      · exact hσ x hx)
    (fun t ht => hTC v t ht)
  intro σ' t hmon' hDC' hnew' ht
  have hmu1 : muSC g (discover σ v) < muSC g σ := muSC_discover_lt g σ v hv hnew
  have hmu' : muSC g σ' ≤ muSC g (discover σ v) := muSC_mono g hmon'
  have hb1 : muSC g σ' ≤ g.vertices.length := by omega
  have hb2 : muSC g σ' ≤ sccFuel g := by simp only [sccFuel]; omega
  exact scF_fuel_congr g hTC _ _ σ' t hDC' ht hnew' hb1 hb2

/-! ### List utilities for the stack decomposition -/

lemma takeWhile_eq_of_append {α : Type} (p : α → Bool) (l₁ l₂ : List α)
    (h₁ : ∀ x ∈ l₁, p x = true) (h₂ : ∀ l₂' x, l₂ = x :: l₂' → p x = false) :
    (l₁ ++ l₂).takeWhile p = l₁ ∧ (l₁ ++ l₂).dropWhile p = l₂ := by
  induction l₁ with
  | nil =>
    rcases l₂ with _ | ⟨x, l₂'⟩
    · simp
    · have := h₂ l₂' x rfl
      simp [List.takeWhile, List.dropWhile, this]
  | cons a l₁ ih =>
    have hpa := h₁ a (by simp)
    have ⟨iht, ihd⟩ := ih fun x hx => h₁ x (by simp [hx])
    simp [List.takeWhile, List.dropWhile, hpa, iht, ihd]

lemma chain'_desc_nodup {α : Type} (f : α → Nat) (l : List α)
    (h : l.Chain' fun a b => f b < f a) : l.Nodup := by
  haveI : IsTrans α (fun a b => f b < f a) := ⟨fun a b c h1 h2 => lt_trans h2 h1⟩
  have hp := List.chain'_iff_pairwise.mp h
  exact hp.imp fun hab => by
    intro hEq
    subst hEq
    exact lt_irrefl _ hab

lemma chain'_desc_pairwise {α : Type} (f : α → Nat) (l : List α)
    (h : l.Chain' fun a b => f b < f a) : l.Pairwise fun a b => f b < f a := by
  haveI : IsTrans α (fun a b => f b < f a) := ⟨fun a b c h1 h2 => lt_trans h2 h1⟩
  exact List.chain'_iff_pairwise.mp h

lemma mem_flatten_iff_get {α : Type} (c : List (List α)) (x : α) :
    x ∈ c.flatten ↔ ∃ i, ∃ (hi : i < c.length), x ∈ c.get ⟨i, hi⟩ := by
  rw [List.mem_flatten]
  constructor
  · rintro ⟨l, hl, hx⟩
    obtain ⟨⟨i, hi⟩, rfl⟩ := List.mem_iff_get.mp hl
    exact ⟨i, hi, hx⟩
  · rintro ⟨i, hi, hx⟩
    exact ⟨c.get ⟨i, hi⟩, List.get_mem c i hi, hx⟩

/-! ### The invariant of the SCC engine

The ghost parameter `grays` is the chain of vertices whose `strong_connect`
activation is still running, deepest first; the Python code keeps no such
list, but every invariant about the mutable state is stated relative to it. -/

structure Inv (g : Graph) (grays : List String) (σ : St) : Prop where
  dSub : DClosed g σ
  numLe : ∀ x, Dm σ x → numD σ x ≤ σ.counter
  stackD : ∀ x ∈ σ.stack, Dm σ x
  stackSorted : σ.stack.Chain' fun a b => numD σ b < numD σ a
  graysSub : ∀ y ∈ grays, y ∈ σ.stack
  graysChain : grays.Chain' fun a b => Reach g b a
  lowLe : ∀ x ∈ σ.stack, lowD σ x ≤ numD σ x
  lowWit : ∀ x ∈ σ.stack, ∃ y ∈ σ.stack, numD σ y = lowD σ x ∧ Reach g x y
  stackReach : ∀ x ∈ σ.stack, ∀ y ∈ σ.stack, numD σ x ≤ numD σ y → Reach g x y
  grayWit : ∀ x ∈ σ.stack, ∃ y ∈ grays, numD σ y ≤ numD σ x ∧ Reach g x y
  blackSucc : ∀ x, Dm σ x → x ∉ grays → ∀ t ∈ g.tails x, Dm σ t
  flatNodup : σ.comps.flatten.Nodup
  flatStack : ∀ x ∈ σ.comps.flatten, x ∉ σ.stack
  partition : ∀ x, Dm σ x ↔ (x ∈ σ.comps.flatten ∨ x ∈ σ.stack)
  compsSCC : ∀ c ∈ σ.comps, ∀ x ∈ c, ∀ y, (y ∈ c ↔ (Reach g x y ∧ Reach g y x))
  compsClosed : ∀ j, (hj : j < σ.comps.length) → ∀ x ∈ σ.comps.get ⟨j, hj⟩,
    ∀ t ∈ g.tails x, ∃ i, ∃ (hi : i < σ.comps.length), i ≤ j ∧ t ∈ σ.comps.get ⟨i, hi⟩
  compsNE : ∀ c ∈ σ.comps, c ≠ []

/-- Postcondition of one completed `strong_connect` activation. -/
structure SCPost (g : Graph) (σ σ' : St) (v : String) : Prop where
  dmV : Dm σ' v
  numV : numD σ' v = σ.counter + 1
  dMono : ∀ x, Dm σ x → Dm σ' x
  countKeep : ∀ x, Dm σ x → σ'.count.lookup x = σ.count.lookup x
  lowKeep : ∀ x, Dm σ x → σ'.lowlink.lookup x = σ.lowlink.lookup x
  counterMono : σ.counter ≤ σ'.counter
  newReach : ∀ x, Dm σ' x → ¬ Dm σ x → Reach g v x
  newNum : ∀ x, Dm σ' x → ¬ Dm σ x → σ.counter < numD σ' x
  stackShape : ∃ Δ, σ'.stack = Δ ++ σ.stack ∧ ∀ x ∈ Δ, ¬ Dm σ x
  compsShape : ∃ nw, σ'.comps = σ.comps ++ nw
  vLow : lowD σ' v ≤ numD σ' v
  vRoot : v ∉ σ'.stack → lowD σ' v = numD σ' v
  lowBound : ∀ x ∈ σ'.stack, numD σ' v ≤ numD σ' x → ∀ t ∈ g.tails x, t ∈ σ'.stack →
    (lowD σ' v ≤ numD σ' t ∨ numD σ' v ≤ numD σ' t)

lemma SCPost.numKeep {g : Graph} {σ σ' : St} {v : String} (h : SCPost g σ σ' v)
    (x : String) (hx : Dm σ x) : numD σ' x = numD σ x := by
  simp [numD, h.countKeep x hx]

lemma SCPost.lowKeepD {g : Graph} {σ σ' : St} {v : String} (h : SCPost g σ σ' v)
    (x : String) (hx : Dm σ x) : lowD σ' x = lowD σ x := by
  simp [lowD, h.lowKeep x hx]

/-- A lowlink assignment to a stacked vertex preserves the invariant provided
the new value still satisfies the lowlink conditions for that vertex. -/
lemma Inv_setLow {g : Graph} {grays : List String} {σ : St} {v : String} {n : Nat}
    (hInv : Inv g grays σ) (hv : v ∈ σ.stack) (hle : n ≤ numD σ v)
    (hwit : ∃ y ∈ σ.stack, numD σ y = n ∧ Reach g v y) :
    Inv g grays (setLow σ v n) := by
  refine ⟨hInv.dSub, hInv.numLe, hInv.stackD, hInv.stackSorted, hInv.graysSub,
    hInv.graysChain, ?_, ?_, hInv.stackReach, hInv.grayWit, hInv.blackSucc,
    hInv.flatNodup, hInv.flatStack, hInv.partition, hInv.compsSCC, hInv.compsClosed,
    hInv.compsNE⟩
  · intro x hx
    by_cases hxv : x = v
    · subst hxv
      rw [lowD_setLow_same, numD_setLow]
      exact hle
    · rw [lowD_setLow_other σ v n x hxv, numD_setLow]
      exact hInv.lowLe x hx
  · intro x hx
    by_cases hxv : x = v
    · subst hxv
      rw [lowD_setLow_same]
      exact hwit
    · rw [lowD_setLow_other σ v n x hxv]
      exact hInv.lowWit x hx

lemma chain'_transfer {α : Type} {R S : α → α → Prop} {l : List α} (h : l.Chain' R)
    (himp : ∀ a ∈ l, ∀ b ∈ l, R a b → S a b) : l.Chain' S := by
  induction l with
  | nil => exact List.chain'_nil
  | cons a rest ih =>
    rw [List.chain'_cons'] at h ⊢
    refine ⟨?_, ih (h.2) fun x hx y hy hR => himp x (by simp [hx]) y (by simp [hy]) hR⟩
    intro b hb
    exact himp a (by simp) b (by simp [List.mem_of_mem_head? hb]) (h.1 b hb)

/-- Pushing an undiscovered vertex reached from every gray vertex: the
invariant carries over to the extended state and gray chain. -/
lemma Inv_discover {g : Graph} {grays : List String} {σ : St} {v : String}
    (hInv : Inv g grays σ) (hv : v ∈ g.vertices) (hnew : ¬ Dm σ v)
    (hgr : ∀ y ∈ grays, Reach g y v) :
    Inv g (v :: grays) (discover σ v) := by
  have hDmD : ∀ x, Dm (discover σ v) x ↔ x = v ∨ Dm σ x := Dm_discover σ v
  have hne : ∀ x, Dm σ x → x ≠ v := fun x hx hEq => hnew (hEq ▸ hx)
  have hnum : ∀ x, Dm σ x → numD (discover σ v) x = numD σ x := fun x hx =>
    numD_discover_other σ v x (hne x hx)
  have hlow : ∀ x, Dm σ x → lowD (discover σ v) x = lowD σ x := fun x hx =>
    lowD_discover_other σ v x (hne x hx)
  have hstackD : ∀ x ∈ σ.stack, Dm σ x := hInv.stackD
  have hnumber : ∀ x ∈ σ.stack, numD (discover σ v) x = numD σ x := fun x hx =>
    hnum x (hstackD x hx)
  have hstack1 : (discover σ v).stack = v :: σ.stack := rfl
  have hcomps1 : (discover σ v).comps = σ.comps := rfl
  have hctr1 : (discover σ v).counter = σ.counter + 1 := rfl
  have hflatDm : ∀ x ∈ σ.comps.flatten, Dm σ x := fun x hx =>
    (hInv.partition x).mpr (Or.inl hx)
  refine ⟨?_, ?_, ?_, ?_, ?_, ?_, ?_, ?_, ?_, ?_, ?_, ?_, ?_, ?_, ?_, ?_, ?_⟩
  · intro x hx
    rcases (hDmD x).mp hx with heq | hx
    · rw [heq]; exact hv
    · exact hInv.dSub x hx
  · intro x hx
    rw [hctr1]
    rcases (hDmD x).mp hx with heq | hx
    · rw [heq, numD_discover_same]
    · rw [hnum x hx]
      have := hInv.numLe x hx
      omega
  · intro x hx
    rw [hstack1] at hx
    rcases List.mem_cons.mp hx with heq | hx
    · rw [heq]; exact (hDmD v).mpr (Or.inl rfl)
    · exact (hDmD x).mpr (Or.inr (hstackD x hx))
  · rw [hstack1, List.chain'_cons']
    constructor
    · intro b hb
      have hbmem : b ∈ σ.stack := List.mem_of_mem_head? hb
      rw [hnumber b hbmem, numD_discover_same]
      have := hInv.numLe b (hstackD b hbmem)
      omega
    · refine chain'_transfer hInv.stackSorted fun a ha b hb hR => ?_
      rw [hnumber a ha, hnumber b hb]
      exact hR
  · intro y hy
    rw [hstack1]
    rcases List.mem_cons.mp hy with heq | hy
    · rw [heq]; exact List.mem_cons_self _ _
    · exact List.mem_cons_of_mem _ (hInv.graysSub y hy)
  · rw [List.chain'_cons']
    exact ⟨fun b hb => hgr b (List.mem_of_mem_head? hb), hInv.graysChain⟩
  · intro x hx
    rw [hstack1] at hx
    rcases List.mem_cons.mp hx with heq | hx
    · rw [heq, lowD_discover_same, numD_discover_same]
    · rw [hlow x (hstackD x hx), hnum x (hstackD x hx)]
      exact hInv.lowLe x hx
  · intro x hx
    rw [hstack1] at hx
    rcases List.mem_cons.mp hx with heq | hx
    · refine ⟨v, ?_, ?_, ?_⟩
      · rw [hstack1]; exact List.mem_cons_self _ _
      · rw [heq, lowD_discover_same, numD_discover_same]
      · rw [heq]; exact reach_refl g v
    · obtain ⟨y, hy, hyn, hyr⟩ := hInv.lowWit x hx
      refine ⟨y, ?_, ?_, hyr⟩
      · rw [hstack1]; exact List.mem_cons_of_mem _ hy
      · rw [hnum y (hstackD y hy), hlow x (hstackD x hx)]; exact hyn
  · intro x hx y hy hxy
    rw [hstack1] at hx hy
    rcases List.mem_cons.mp hx with heqx | hxs
    · rcases List.mem_cons.mp hy with heqy | hys
      · rw [heqx, heqy]; exact reach_refl g v
      · rw [heqx, numD_discover_same] at hxy
        rw [hnumber y hys] at hxy
        have := hInv.numLe y (hstackD y hys)
        omega
    · rcases List.mem_cons.mp hy with heqy | hys
      · rw [heqy]
        obtain ⟨z, hz, _, hzr⟩ := hInv.grayWit x hxs
        exact reach_trans hzr (hgr z hz)
      · rw [hnumber x hxs, hnumber y hys] at hxy
        exact hInv.stackReach x hxs y hys hxy
  · intro x hx
    rw [hstack1] at hx
    rcases List.mem_cons.mp hx with heq | hx
    · refine ⟨v, List.mem_cons_self _ _, ?_, ?_⟩
      · rw [heq]
      · rw [heq]; exact reach_refl g v
    · obtain ⟨y, hy, hyn, hyr⟩ := hInv.grayWit x hx
      have hyst : y ∈ σ.stack := hInv.graysSub y hy
      refine ⟨y, List.mem_cons_of_mem _ hy, ?_, hyr⟩
      rw [hnumber y hyst, hnumber x hx]
      exact hyn
  · intro x hx hxg t ht
    rcases (hDmD x).mp hx with heq | hx
    · exact absurd (by rw [heq]; exact List.mem_cons_self _ _) hxg
    · have hxg' : x ∉ grays := fun hg => hxg (List.mem_cons_of_mem _ hg)
      exact (hDmD t).mpr (Or.inr (hInv.blackSucc x hx hxg' t ht))
  · rw [hcomps1]; exact hInv.flatNodup
  · intro x hx
    rw [hcomps1] at hx
    rw [hstack1]
    intro hmem
    rcases List.mem_cons.mp hmem with heq | hmem
    · exact hnew (heq ▸ hflatDm x hx)
    · exact hInv.flatStack x hx hmem
  · intro x
    rw [hcomps1, hstack1, hDmD x, hInv.partition x, List.mem_cons]
    constructor
    · rintro (heq | hfl | hst)
      · exact Or.inr (Or.inl heq)
      · exact Or.inl hfl
      · exact Or.inr (Or.inr hst)
    · rintro (hfl | heq | hst)
      · exact Or.inr (Or.inl hfl)
      · exact Or.inl heq
      · exact Or.inr (Or.inr hst)
  · rw [hcomps1]; exact hInv.compsSCC
  · rw [hcomps1]; exact hInv.compsClosed
  · rw [hcomps1]; exact hInv.compsNE

/-- Relation between two states of the successor loop of one activation:
discoveries are monotone, old discovery numbers persist, the head's lowlink
only decreases, and a vertex already discovered can never re-enter the
stack. -/
structure StepRel (v : String) (σc σ₂ : St) : Prop where
  dMono : ∀ x, Dm σc x → Dm σ₂ x
  countKeep : ∀ x, Dm σc x → σ₂.count.lookup x = σc.count.lookup x
  lowV : lowD σ₂ v ≤ lowD σc v
  noReenter : ∀ x, Dm σc x → x ∈ σ₂.stack → x ∈ σc.stack

lemma StepRel.numKeepS {v : String} {σc σ₂ : St} (h : StepRel v σc σ₂)
    (x : String) (hx : Dm σc x) : numD σ₂ x = numD σc x := by
  simp [numD, h.countKeep x hx]

lemma StepRel.refl (v : String) (σ : St) : StepRel v σ σ :=
  ⟨fun _ hx => hx, fun _ _ => rfl, le_refl _, fun _ _ hx => hx⟩

lemma StepRel.trans {v : String} {σ1 σ2 σ3 : St} (h12 : StepRel v σ1 σ2)
    (h23 : StepRel v σ2 σ3) : StepRel v σ1 σ3 := by
  refine ⟨fun x hx => h23.dMono x (h12.dMono x hx), ?_, le_trans h23.lowV h12.lowV, ?_⟩
  · intro x hx
    rw [h23.countKeep x (h12.dMono x hx), h12.countKeep x hx]
  · intro x hx hst
    exact h12.noReenter x hx (h23.noReenter x (h12.dMono x hx) hst)

/-- The edge from the loop's head vertex to `t` has been accounted for: `t`
is discovered, and if it is still on the stack then either the head's lowlink
got below its number or it lies in the head's own region. -/
def EdgeAcc (N : Nat) (v : String) (σ : St) (t : String) : Prop :=
  Dm σ t ∧ (t ∈ σ.stack → (lowD σ v ≤ numD σ t ∨ N ≤ numD σ t))

lemma EdgeAcc_lift {N : Nat} {v : String} {σc σ₂ : St} {t : String}
    (h : EdgeAcc N v σc t) (st : StepRel v σc σ₂) : EdgeAcc N v σ₂ t := by
  refine ⟨st.dMono t h.1, fun hst => ?_⟩
  rw [st.numKeepS t h.1]
  rcases h.2 (st.noReenter t h.1 hst) with hl | hr
  · exact Or.inl (le_trans st.lowV hl)
  · exact Or.inr hr

/-- Invariant of the successor loop of the activation on `v`, stated relative
to the state `σ0` from before `v` was discovered. -/
structure LoopInv (g : Graph) (grays' : List String) (σ0 : St) (v : String)
    (σc : St) : Prop where
  inv : Inv g grays' σc
  dmV : Dm σc v
  numV : numD σc v = σ0.counter + 1
  vStack : v ∈ σc.stack
  dMono1 : ∀ x, Dm (discover σ0 v) x → Dm σc x
  countKeep0 : ∀ x, Dm σ0 x → σc.count.lookup x = σ0.count.lookup x
  lowKeep0 : ∀ x, Dm σ0 x → σc.lowlink.lookup x = σ0.lowlink.lookup x
  counterMono : σ0.counter + 1 ≤ σc.counter
  newReach : ∀ x, Dm σc x → ¬ Dm σ0 x → Reach g v x
  newNum : ∀ x, Dm σc x → ¬ Dm σ0 x → x ≠ v → σ0.counter + 1 < numD σc x
  stackShape : ∃ Δ, σc.stack = Δ ++ v :: σ0.stack ∧ ∀ x ∈ Δ, ¬ Dm (discover σ0 v) x
  compsShape : ∃ nw, σc.comps = σ0.comps ++ nw
  vLow : lowD σc v ≤ σ0.counter + 1
  regionLB : ∀ x ∈ σc.stack, σ0.counter + 1 ≤ numD σc x → x ≠ v →
    ∀ t ∈ g.tails x, t ∈ σc.stack →
      (lowD σc v ≤ numD σc t ∨ σ0.counter + 1 ≤ numD σc t)

lemma LoopInv.numKeep0 {g : Graph} {grays' : List String} {σ0 : St} {v : String}
    {σc : St} (h : LoopInv g grays' σ0 v σc) (x : String) (hx : Dm σ0 x) :
    numD σc x = numD σ0 x := by
  simp [numD, h.countKeep0 x hx]

lemma LoopInv.lowKeepD0 {g : Graph} {grays' : List String} {σ0 : St} {v : String}
    {σc : St} (h : LoopInv g grays' σ0 v σc) (x : String) (hx : Dm σ0 x) :
    lowD σc x = lowD σ0 x := by
  simp [lowD, h.lowKeep0 x hx]

lemma LoopInv.dMono0 {g : Graph} {grays' : List String} {σ0 : St} {v : String}
    {σc : St} (h : LoopInv g grays' σ0 v σc) (x : String) (hx : Dm σ0 x) :
    Dm σc x := h.dMono1 x ((Dm_discover σ0 v x).mpr (Or.inr hx))

/-- One loop iteration that makes a recursive call: combining the call's
postcondition with the `lowlink[head] = min(lowlink[head], lowlink[tail])`
update preserves the loop invariant, relates the states, and accounts for the
processed edge. -/
lemma loop_step_call {g : Graph} {grays : List String} {σ0 σc σb : St}
    {v t : String}
    (hInv0 : Inv g grays σ0) (hnew0 : ¬ Dm σ0 v)
    (L : LoopInv g (v :: grays) σ0 v σc)
    (ht : t ∈ g.tails v) (hnewt : ¬ Dm σc t)
    (hInvB : Inv g (v :: grays) σb) (postB : SCPost g σc σb t) :
    LoopInv g (v :: grays) σ0 v (setLow σb v (min (lowD σb v) (lowD σb t))) ∧
    StepRel v σc (setLow σb v (min (lowD σb v) (lowD σb t))) ∧
    EdgeAcc (σ0.counter + 1) v (setLow σb v (min (lowD σb v) (lowD σb t))) t := by
  have hbv : Dm σb v := postB.dMono v L.dmV
  have hnumbv : numD σb v = σ0.counter + 1 := by rw [postB.numKeep v L.dmV, L.numV]
  have hlowbv : lowD σb v = lowD σc v := postB.lowKeepD v L.dmV
  have hnumbt : numD σb t = σc.counter + 1 := postB.numV
  have hNltt : σ0.counter + 1 < numD σb t := by
    rw [hnumbt]; have := L.counterMono; omega
  obtain ⟨Δb, hΔb, hfreshb⟩ := postB.stackShape
  have noReenterB : ∀ x, Dm σc x → x ∈ σb.stack → x ∈ σc.stack := by
    intro x hx hxs
    rw [hΔb] at hxs
    rcases List.mem_append.mp hxs with hin | hout
    · exact absurd hx (hfreshb x hin)
    · exact hout
  have hvstackb : v ∈ σb.stack := by
    rw [hΔb]; exact List.mem_append_right _ L.vStack
  set m := min (lowD σb v) (lowD σb t) with hm_def
  have hm_le_v : m ≤ lowD σc v := by rw [← hlowbv]; exact min_le_left _ _
  have hm_le_N : m ≤ σ0.counter + 1 := le_trans hm_le_v L.vLow
  have hwit : ∃ y ∈ σb.stack, numD σb y = m ∧ Reach g v y := by
    by_cases hcmp : lowD σb v ≤ lowD σb t
    · obtain ⟨y, hy, hyn, hyr⟩ := hInvB.lowWit v hvstackb
      exact ⟨y, hy, by rw [hyn, hm_def, min_eq_left hcmp], hyr⟩
    · have htb : t ∈ σb.stack := by
        by_contra hnst
        have hroot := postB.vRoot hnst
        have h1 : lowD σb v ≤ σ0.counter + 1 := le_trans (le_of_eq hlowbv) L.vLow
        rw [hroot] at hcmp
        exact hcmp (le_trans h1 (le_of_lt hNltt))
      obtain ⟨y, hy, hyn, hyr⟩ := hInvB.lowWit t htb
      refine ⟨y, hy, by rw [hyn, hm_def, min_eq_right (le_of_not_le hcmp)], ?_⟩
      exact reach_trans (reach_step (show gstep g v t from ht)) hyr
  have hInv' : Inv g (v :: grays) (setLow σb v m) :=
    Inv_setLow hInvB hvstackb (le_trans (min_le_left _ _) (hInvB.lowLe v hvstackb)) hwit
  have hstack' : (setLow σb v m).stack = σb.stack := rfl
  have hcomps' : (setLow σb v m).comps = σb.comps := rfl
  have hDm' : ∀ x, Dm (setLow σb v m) x ↔ Dm σb x := fun x => Iff.rfl
  have hnum' : ∀ x, numD (setLow σb v m) x = numD σb x := fun x => rfl
  have hlowv' : lowD (setLow σb v m) v = m := lowD_setLow_same σb v m
  have hgrDm0 : ∀ y ∈ grays, Dm σ0 y := fun y hy =>
    hInv0.stackD y (hInv0.graysSub y hy)
  refine ⟨⟨hInv', ?_, ?_, ?_, ?_, ?_, ?_, ?_, ?_, ?_, ?_, ?_, ?_, ?_⟩, ?_, ?_⟩
  · exact (hDm' v).mpr hbv
  · rw [hnum' v, hnumbv]
  · rw [hstack']; exact hvstackb
  · intro x hx
    exact postB.dMono x (L.dMono1 x hx)
  · intro x hx
    rw [show (setLow σb v m).count = σb.count from rfl,
      postB.countKeep x (L.dMono0 x hx), L.countKeep0 x hx]
  · intro x hx
    have hxv : x ≠ v := fun hEq => hnew0 (hEq ▸ hx)
    rw [show (setLow σb v m).lowlink = (v, m) :: σb.lowlink from rfl]
    rw [show List.lookup x ((v, m) :: σb.lowlink) = List.lookup x σb.lowlink by
      simp [List.lookup, beq_eq_false_iff_ne.mpr hxv]]
    rw [postB.lowKeep x (L.dMono0 x hx), L.lowKeep0 x hx]
  · exact le_trans L.counterMono postB.counterMono
  · intro x hx hx0
    rw [hDm'] at hx
    by_cases hxc : Dm σc x
    · exact L.newReach x hxc hx0
    · exact reach_trans (reach_step (show gstep g v t from ht)) (postB.newReach x hx hxc)
  · intro x hx hx0 hxv
    rw [hDm'] at hx
    rw [hnum']
    by_cases hxc : Dm σc x
    · rw [postB.numKeep x hxc]
      exact L.newNum x hxc hx0 hxv
    · have := postB.newNum x hx hxc
      have := L.counterMono
      omega
  · obtain ⟨Δc, hΔc, hfreshc⟩ := L.stackShape
    refine ⟨Δb ++ Δc, ?_, ?_⟩
    · rw [hstack', hΔb, hΔc, List.append_assoc]
    · intro x hx
      rcases List.mem_append.mp hx with hin | hin
      · exact fun hDm1 => (hfreshb x hin) (L.dMono1 x hDm1)
      · exact hfreshc x hin
  · obtain ⟨nwc, hnwc⟩ := L.compsShape
    obtain ⟨nwb, hnwb⟩ := postB.compsShape
    exact ⟨nwc ++ nwb, by rw [hcomps', hnwb, hnwc, List.append_assoc]⟩
  · rw [hlowv']; exact hm_le_N
  · intro x hxs hNx hxv t' ht' ht's
    rw [hstack'] at hxs ht's
    simp only [hnum'] at hNx
    simp only [hnum', hlowv']
    by_cases hdmc : Dm σc x
    · have hxsc : x ∈ σc.stack := noReenterB x hdmc hxs
      have hnumeq : numD σb x = numD σc x := postB.numKeep x hdmc
      have hxgr : x ∉ grays := by
        intro hg
        have hx0 : Dm σ0 x := hgrDm0 x hg
        have h1 : numD σc x = numD σ0 x := L.numKeep0 x hx0
        have h2 : numD σ0 x ≤ σ0.counter := hInv0.numLe x hx0
        rw [hnumeq, h1] at hNx
        omega
      have hxng : x ∉ v :: grays := by
        intro hmem
        rcases List.mem_cons.mp hmem with heq | hmem
        · exact hxv heq
        · exact hxgr hmem
      have hDmt' : Dm σc t' := L.inv.blackSucc x hdmc hxng t' ht'
      have ht'sc : t' ∈ σc.stack := noReenterB t' hDmt' ht's
      have hrb := L.regionLB x hxsc (by rw [← hnumeq]; exact hNx) hxv t' ht' ht'sc
      rw [postB.numKeep t' hDmt']
      rcases hrb with hl | hr
      · exact Or.inl (le_trans hm_le_v hl)
      · exact Or.inr hr
    · have hxDmb : Dm σb x := hInvB.stackD x hxs
      have hnumtx : numD σb t ≤ numD σb x := by
        have := postB.newNum x hxDmb hdmc
        rw [hnumbt]
        omega
      rcases postB.lowBound x hxs hnumtx t' ht' ht's with hl | hr
      · exact Or.inl (le_trans (min_le_right _ _) hl)
      · exact Or.inr (le_trans (le_of_lt hNltt) hr)
  · refine ⟨fun x hx => postB.dMono x hx, fun x hx => ?_, ?_, ?_⟩
    · rw [show (setLow σb v m).count = σb.count from rfl, postB.countKeep x hx]
    · rw [hlowv']; exact hm_le_v
    · intro x hx hxs
      rw [hstack'] at hxs
      exact noReenterB x hx hxs
  · refine ⟨(hDm' t).mpr postB.dmV, fun _ => Or.inr ?_⟩
    rw [hnum' t]
    exact le_of_lt hNltt

/-- One loop iteration hitting an already-discovered vertex with a smaller
discovery number that is still on the stack: the
`lowlink[head] = min(lowlink[head], count[tail])` update. -/
lemma loop_step_stack {g : Graph} {grays : List String} {σ0 σc : St}
    {v t : String} {ct : Nat}
    (hInv0 : Inv g grays σ0) (hnew0 : ¬ Dm σ0 v)
    (L : LoopInv g (v :: grays) σ0 v σc)
    (ht : t ∈ g.tails v) (hct : σc.count.lookup t = some ct)
    (hst : t ∈ σc.stack) :
    LoopInv g (v :: grays) σ0 v (setLow σc v (min (lowD σc v) ct)) ∧
    StepRel v σc (setLow σc v (min (lowD σc v) ct)) ∧
    EdgeAcc (σ0.counter + 1) v (setLow σc v (min (lowD σc v) ct)) t := by
  have hDmt : Dm σc t := by simp [Dm, hct]
  have hnumt : numD σc t = ct := by simp [numD, hct]
  set m := min (lowD σc v) ct with hm_def
  have hm_le_v : m ≤ lowD σc v := min_le_left _ _
  have hm_le_N : m ≤ σ0.counter + 1 := le_trans hm_le_v L.vLow
  have hwit : ∃ y ∈ σc.stack, numD σc y = m ∧ Reach g v y := by
    by_cases hcmp : lowD σc v ≤ ct
    · obtain ⟨y, hy, hyn, hyr⟩ := L.inv.lowWit v L.vStack
      exact ⟨y, hy, by rw [hyn, hm_def, min_eq_left hcmp], hyr⟩
    · exact ⟨t, hst, by rw [hnumt, hm_def, min_eq_right (le_of_not_le hcmp)],
        reach_step (show gstep g v t from ht)⟩
  have hInv' : Inv g (v :: grays) (setLow σc v m) :=
    Inv_setLow L.inv L.vStack (le_trans hm_le_v (L.inv.lowLe v L.vStack)) hwit
  have hstack' : (setLow σc v m).stack = σc.stack := rfl
  have hcomps' : (setLow σc v m).comps = σc.comps := rfl
  have hnum' : ∀ x, numD (setLow σc v m) x = numD σc x := fun x => rfl
  have hlowv' : lowD (setLow σc v m) v = m := lowD_setLow_same σc v m
  refine ⟨⟨hInv', L.dmV, ?_, L.vStack, L.dMono1, L.countKeep0, ?_, L.counterMono,
    L.newReach, ?_, L.stackShape, L.compsShape, ?_, ?_⟩,
    ⟨fun x hx => hx, fun x _ => rfl, by rw [hlowv']; exact hm_le_v,
      fun x _ hxs => hxs⟩, ⟨hDmt, fun _ => Or.inl ?_⟩⟩
  · rw [hnum' v]; exact L.numV
  · intro x hx
    have hxv : x ≠ v := fun hEq => hnew0 (hEq ▸ hx)
    rw [show (setLow σc v m).lowlink = (v, m) :: σc.lowlink from rfl]
    rw [show List.lookup x ((v, m) :: σc.lowlink) = List.lookup x σc.lowlink by
      simp [List.lookup, beq_eq_false_iff_ne.mpr hxv]]
    exact L.lowKeep0 x hx
  · intro x hx hx0 hxv
    rw [hnum' x]
    exact L.newNum x hx hx0 hxv
  · rw [hlowv']; exact hm_le_N
  · intro x hxs hNx hxv t' ht' ht's
    rw [hstack'] at hxs ht's
    simp only [hnum'] at hNx
    simp only [hnum', hlowv']
    rcases L.regionLB x hxs hNx hxv t' ht' ht's with hl | hr
    · exact Or.inl (le_trans hm_le_v hl)
    · exact Or.inr hr
  · rw [hlowv', hnum' t, hnumt]
    exact min_le_right _ _

/-- The whole successor loop of one activation: the loop invariant is
preserved, the states are related, and every processed edge is accounted
for. -/
lemma visitTails_spec (g : Graph) (hTC : TailsClosed g)
    {grays : List String} {σ0 : St} {v : String}
    (hInv0 : Inv g grays σ0) (hv : v ∈ g.vertices) (hnew0 : ¬ Dm σ0 v)
    (hgr : ∀ y ∈ grays, Reach g y v)
    (hIH : ∀ σ' t, muSC g σ' < muSC g σ0 → Inv g (v :: grays) σ' →
      t ∈ g.vertices → ¬ Dm σ' t → (∀ y ∈ v :: grays, Reach g y t) →
      Inv g (v :: grays) (strongConnectF g (sccFuel g) σ' t) ∧
        SCPost g σ' (strongConnectF g (sccFuel g) σ' t) t) :
    ∀ ts σc, (∀ t ∈ ts, t ∈ g.tails v) → LoopInv g (v :: grays) σ0 v σc →
      LoopInv g (v :: grays) σ0 v
        (visitTails g (fun σ' t => strongConnectF g (sccFuel g) σ' t) v σc ts) ∧
      StepRel v σc
        (visitTails g (fun σ' t => strongConnectF g (sccFuel g) σ' t) v σc ts) ∧
      ∀ t ∈ ts, EdgeAcc (σ0.counter + 1) v
        (visitTails g (fun σ' t => strongConnectF g (sccFuel g) σ' t) v σc ts) t := by
  intro ts
  induction ts with
  | nil =>
    intro σc _ L
    exact ⟨L, StepRel.refl v σc, by simp⟩
  | cons t rest ih =>
    intro σc hts L
    have ht : t ∈ g.tails v := hts t (by simp)
    have hrest : ∀ t' ∈ rest, t' ∈ g.tails v := fun t' ht' => hts t' (by simp [ht'])
    rcases hct : σc.count.lookup t with _ | ct
    · -- undiscovered tail: recursive call and lowlink merge
      have hnewt : ¬ Dm σc t := by simp [Dm, hct]
      have hmu : muSC g σc < muSC g σ0 :=
        lt_of_le_of_lt (muSC_mono g L.dMono1) (muSC_discover_lt g σ0 v hv hnew0)
      have hreach' : ∀ y ∈ v :: grays, Reach g y t := by
        intro y hy
        rcases List.mem_cons.mp hy with heq | hy
        · rw [heq]; exact reach_step (show gstep g v t from ht)
        · exact reach_trans (hgr y hy) (reach_step (show gstep g v t from ht))
      obtain ⟨hInvB, postB⟩ := hIH σc t hmu L.inv (hTC v t ht) hnewt hreach'
      obtain ⟨L', S', E'⟩ := loop_step_call hInv0 hnew0 L ht hnewt hInvB postB
      obtain ⟨L'', S'', E''⟩ := ih _ hrest L'
      have key : visitTails g (fun σ' t => strongConnectF g (sccFuel g) σ' t) v σc
            (t :: rest) =
          visitTails g (fun σ' t => strongConnectF g (sccFuel g) σ' t) v
            (setLow (strongConnectF g (sccFuel g) σc t) v
              (min (lowD (strongConnectF g (sccFuel g) σc t) v)
                (lowD (strongConnectF g (sccFuel g) σc t) t))) rest := by
        simp only [visitTails, hct]
      rw [key]
      refine ⟨L'', StepRel.trans S' S'', ?_⟩
      intro t' ht'
      rcases List.mem_cons.mp ht' with heq | ht'
      · rw [heq]; exact EdgeAcc_lift E' S''
      · exact E'' t' ht'
    · have hDmt : Dm σc t := by simp [Dm, hct]
      by_cases hlt : ct < numD σc v
      · by_cases hstk : t ∈ σc.stack
        · -- back edge into the stack: lowlink update with count[tail]
          obtain ⟨L', S', E'⟩ := loop_step_stack hInv0 hnew0 L ht hct hstk
          obtain ⟨L'', S'', E''⟩ := ih _ hrest L'
          have key : visitTails g (fun σ' t => strongConnectF g (sccFuel g) σ' t) v σc
                (t :: rest) =
              visitTails g (fun σ' t => strongConnectF g (sccFuel g) σ' t) v
                (setLow σc v (min (lowD σc v) ct)) rest := by
            simp only [visitTails, hct, if_pos hlt, if_pos hstk]
          rw [key]
          refine ⟨L'', StepRel.trans S' S'', ?_⟩
          intro t' ht'
          rcases List.mem_cons.mp ht' with heq | ht'
          · rw [heq]; exact EdgeAcc_lift E' S''
          · exact E'' t' ht'
        · -- cross edge to an already-completed vertex: no update
          obtain ⟨L'', S'', E''⟩ := ih _ hrest L
          have key : visitTails g (fun σ' t => strongConnectF g (sccFuel g) σ' t) v σc
                (t :: rest) =
              visitTails g (fun σ' t => strongConnectF g (sccFuel g) σ' t) v σc rest := by
            simp only [visitTails, hct, if_pos hlt, if_neg hstk]
          rw [key]
          refine ⟨L'', S'', ?_⟩
          intro t' ht'
          rcases List.mem_cons.mp ht' with heq | ht'
          · rw [heq]
            refine EdgeAcc_lift ⟨hDmt, fun hst => absurd hst hstk⟩ S''
          · exact E'' t' ht'
      · -- forward edge (count[tail] not smaller): no update
        obtain ⟨L'', S'', E''⟩ := ih _ hrest L
        have key : visitTails g (fun σ' t => strongConnectF g (sccFuel g) σ' t) v σc
              (t :: rest) =
            visitTails g (fun σ' t => strongConnectF g (sccFuel g) σ' t) v σc rest := by
          simp only [visitTails, hct, if_neg hlt]
        rw [key]
        refine ⟨L'', S'', ?_⟩
        intro t' ht'
        rcases List.mem_cons.mp ht' with heq | ht'
        · rw [heq]
          refine EdgeAcc_lift ⟨hDmt, fun _ => Or.inr ?_⟩ S''
          have hnumt : numD σc t = ct := by simp [numD, hct]
          rw [hnumt]
          rw [L.numV] at hlt
          omega
        · exact E'' t' ht'

end ImportChecker

namespace ImportChecker

-- Concrete evaluations of the embedded pipeline.
example : stronglyConnectedComponents (Graph.ofEdges [("a", "b"), ("b", "a")] []) =
    [["a", "b"]] := by decide

example : stronglyConnectedComponents (Graph.ofEdges [("a", "b")] []) =
    [["b"], ["a"]] := by decide

example : getImports "lib/t.js" ("import x " ++ qm ++ "../a.js" ++ qm ++ ";") = ["a.js"] := by
  decide

example :
    getEdges [("E", "import x " ++ qm ++ "A" ++ qm ++ ";"), ("A", "import x " ++ qm ++ "E" ++ qm ++ ";")] "E" =
      Except.ok [("E", "A"), ("A", "E"), ("E", "A")] := rfl

example :
    (getEdgesT [("E", "import x " ++ qm ++ "A" ++ qm ++ ";"), ("A", "import x " ++ qm ++ "E" ++ qm ++ ";")] "E").trace =
      ["E", "A", "E"] := by decide

example :
    runOutput [("E", "import x " ++ qm ++ "A" ++ qm ++ ";"), ("A", "import x " ++ qm ++ "E" ++ qm ++ ";")] "E" =
      Except.ok [["A", "E"]] := rfl

/-- When the root test succeeds, everything reachable from the activation's
vertex is either already inside an emitted component or still on the stack
within the activation's own region. -/
lemma esc_good (g : Graph) {grays : List String} {σ0 σ₂ : St} {v : String}
    (hInv0 : Inv g grays σ0)
    (L2 : LoopInv g (v :: grays) σ0 v σ₂)
    (hdone : ∀ t ∈ g.tails v, Dm σ₂ t)
    (hfullLB : ∀ x ∈ σ₂.stack, σ0.counter + 1 ≤ numD σ₂ x → ∀ t ∈ g.tails x,
      t ∈ σ₂.stack → (lowD σ₂ v ≤ numD σ₂ t ∨ σ0.counter + 1 ≤ numD σ₂ t))
    (hroot : lowD σ₂ v = σ0.counter + 1) :
    ∀ w, Reach g v w →
      (w ∈ σ₂.comps.flatten ∨ (w ∈ σ₂.stack ∧ σ0.counter + 1 ≤ numD σ₂ w)) := by
  have hgrDm0 : ∀ y ∈ grays, Dm σ0 y := fun y hy =>
    hInv0.stackD y (hInv0.graysSub y hy)
  intro w hw
  induction hw with
  | refl => exact Or.inr ⟨L2.vStack, by rw [L2.numV]⟩
  | tail hz hstep ihz =>
    rename_i z y
    rcases ihz with hfl | ⟨hzs, hNz⟩
    · obtain ⟨j, hj, hzj⟩ := (mem_flatten_iff_get _ _).mp hfl
      obtain ⟨i, hi, _, hyi⟩ := L2.inv.compsClosed j hj z hzj y hstep
      exact Or.inl ((mem_flatten_iff_get _ _).mpr ⟨i, hi, hyi⟩)
    · have hDmy : Dm σ₂ y := by
        by_cases hzv : z = v
        · exact hdone y (by rw [← hzv]; exact hstep)
        · have hzgr : z ∉ v :: grays := by
            intro hmem
            rcases List.mem_cons.mp hmem with heq | hmem
            · exact hzv heq
            · have hz0 : Dm σ0 z := hgrDm0 z hmem
              have h1 : numD σ₂ z = numD σ0 z := L2.numKeep0 z hz0
              have h2 : numD σ0 z ≤ σ0.counter := hInv0.numLe z hz0
              omega
          exact L2.inv.blackSucc z (L2.inv.stackD z hzs) hzgr y hstep
      by_cases hys : y ∈ σ₂.stack
      · rcases hfullLB z hzs hNz y hstep hys with hl | hr
        · rw [hroot] at hl
          exact Or.inr ⟨hys, hl⟩
        · exact Or.inr ⟨hys, hr⟩
      · rcases (L2.inv.partition y).mp hDmy with hfl | hst
        · exact Or.inl hfl
        · exact absurd hst hys

lemma sc_root_case (g : Graph) {grays : List String} {σ0 σ₂ : St} {v : String}
    (hInv0 : Inv g grays σ0) (hnew0 : ¬ Dm σ0 v)
    (L2 : LoopInv g (v :: grays) σ0 v σ₂)
    (hdone : ∀ t ∈ g.tails v, Dm σ₂ t)
    (hfullLB : ∀ x ∈ σ₂.stack, σ0.counter + 1 ≤ numD σ₂ x → ∀ t ∈ g.tails x,
      t ∈ σ₂.stack → (lowD σ₂ v ≤ numD σ₂ t ∨ σ0.counter + 1 ≤ numD σ₂ t))
    (hroot : lowD σ₂ v = σ0.counter + 1) :
    Inv g grays (popRoot σ₂ v) ∧ SCPost g σ0 (popRoot σ₂ v) v := by
  have hgrDm0 : ∀ y ∈ grays, Dm σ0 y := fun y hy =>
    hInv0.stackD y (hInv0.graysSub y hy)
  have hnumv : numD σ₂ v = σ0.counter + 1 := L2.numV
  have hcond : lowD σ₂ v = numD σ₂ v := by rw [hroot, hnumv]
  obtain ⟨Δ, hΔ, hfreshΔ⟩ := L2.stackShape
  have hold_stack : ∀ x ∈ σ0.stack, x ∈ σ₂.stack := by
    intro x hx
    rw [hΔ]
    exact List.mem_append_right _ (List.mem_cons_of_mem _ hx)
  have hold_num : ∀ x ∈ σ0.stack, numD σ₂ x ≤ σ0.counter := by
    intro x hx
    have hx0 : Dm σ0 x := hInv0.stackD x hx
    rw [L2.numKeep0 x hx0]
    exact hInv0.numLe x hx0
  have hΔfacts : ∀ x ∈ Δ, ¬ Dm σ0 x ∧ x ≠ v ∧ σ0.counter + 1 < numD σ₂ x := by
    intro x hx
    have hx2 : x ∈ σ₂.stack := by rw [hΔ]; exact List.mem_append_left _ hx
    have hfr := hfreshΔ x hx
    have hnd0 : ¬ Dm σ0 x := fun h => hfr ((Dm_discover σ0 v x).mpr (Or.inr h))
    have hne : x ≠ v := fun h => hfr ((Dm_discover σ0 v x).mpr (Or.inl h))
    exact ⟨hnd0, hne, L2.newNum x (L2.inv.stackD x hx2) hnd0 hne⟩
  have hstack2 : σ₂.stack = (Δ ++ [v]) ++ σ0.stack := by
    rw [hΔ, List.append_assoc, List.singleton_append]
  have htakedrop :
      (σ₂.stack.takeWhile fun w => numD σ₂ v ≤ numD σ₂ w) = Δ ++ [v] ∧
      (σ₂.stack.dropWhile fun w => numD σ₂ v ≤ numD σ₂ w) = σ0.stack := by
    rw [hstack2]
    apply takeWhile_eq_of_append
    · intro x hx
      rcases List.mem_append.mp hx with hxΔ | hxv
      · have := (hΔfacts x hxΔ).2.2
        simp only [decide_eq_true_eq]
        omega
      · have : x = v := by simpa using hxv
        rw [this]
        simp
    · intro l' x hl
      have hxs : x ∈ σ0.stack := by rw [hl]; simp
      have := hold_num x hxs
      simp only [decide_eq_false_iff_not, not_le]
      omega
  have hσ₃ : popRoot σ₂ v =
      { σ₂ with stack := σ0.stack, comps := σ₂.comps ++ [Δ ++ [v]] } := by
    rw [popRoot, if_pos hcond, htakedrop.1, htakedrop.2]
  set P := Δ ++ [v] with hP_def
  have hvP : v ∈ P := by simp [hP_def]
  have hstack2' : σ₂.stack = P ++ σ0.stack := hstack2
  have hstack2nodup : σ₂.stack.Nodup :=
    chain'_desc_nodup (numD σ₂) σ₂.stack L2.inv.stackSorted
  have hPdisj : ∀ x ∈ P, x ∉ σ0.stack := by
    have := hstack2' ▸ hstack2nodup
    rw [List.nodup_append] at this
    exact fun x hx hx0 => this.2.2 hx hx0
  have hPnodup : P.Nodup := by
    have := hstack2' ▸ hstack2nodup
    rw [List.nodup_append] at this
    exact this.1
  have hPmem : ∀ x, x ∈ P ↔ (x ∈ σ₂.stack ∧ σ0.counter + 1 ≤ numD σ₂ x) := by
    intro x
    constructor
    · intro hx
      refine ⟨by rw [hstack2']; exact List.mem_append_left _ hx, ?_⟩
      rcases List.mem_append.mp hx with hxΔ | hxv
      · exact le_of_lt (hΔfacts x hxΔ).2.2
      · have : x = v := by simpa using hxv
        rw [this, hnumv]
    · rintro ⟨hxs, hNx⟩
      rw [hstack2'] at hxs
      rcases List.mem_append.mp hxs with hx | hx
      · exact hx
      · have := hold_num x hx
        omega
  have hGood := esc_good g hInv0 L2 hdone hfullLB hroot
  have hPDm : ∀ x ∈ P, Dm σ₂ x := fun x hx =>
    L2.inv.stackD x (((hPmem x).mp hx).1)
  have hPreach : ∀ x ∈ P, Reach g v x ∧ Reach g x v := by
    intro x hx
    obtain ⟨hxs, hNx⟩ := (hPmem x).mp hx
    have hvx : Reach g v x :=
      L2.inv.stackReach v L2.vStack x hxs (by rw [hnumv]; exact hNx)
    refine ⟨hvx, ?_⟩
    obtain ⟨y, hy, hyn, hyr⟩ := L2.inv.grayWit x hxs
    rcases List.mem_cons.mp hy with heq | hy
    · rw [← heq]; exact hyr
    · exfalso
      have hy0 : Dm σ0 y := hgrDm0 y hy
      have hynum : numD σ₂ y ≤ σ0.counter := by
        rw [L2.numKeep0 y hy0]; exact hInv0.numLe y hy0
      have hvy : Reach g v y := reach_trans hvx hyr
      rcases hGood y hvy with hfl | ⟨hys, hNy⟩
      · have hyst : y ∈ σ₂.stack := L2.inv.graysSub y (List.mem_cons_of_mem _ hy)
        exact L2.inv.flatStack y hfl hyst
      · omega
  have hSCCP : ∀ x ∈ P, ∀ y, (y ∈ P ↔ (Reach g x y ∧ Reach g y x)) := by
    intro x hx y
    obtain ⟨hvx, hxv⟩ := hPreach x hx
    constructor
    · intro hy
      obtain ⟨hvy, hyv⟩ := hPreach y hy
      exact ⟨reach_trans hxv hvy, reach_trans hyv hvx⟩
    · rintro ⟨hxy, hyx⟩
      have hvy : Reach g v y := reach_trans hvx hxy
      have hyv : Reach g y v := reach_trans hyx hxv
      rcases hGood y hvy with hfl | ⟨hys, hNy⟩
      · exfalso
        obtain ⟨c, hc, hyc⟩ := List.mem_flatten.mp hfl
        have hvc : v ∈ c := (L2.inv.compsSCC c hc y hyc v).mpr ⟨hyv, hvy⟩
        have : v ∈ σ₂.comps.flatten := List.mem_flatten.mpr ⟨c, hc, hvc⟩
        exact L2.inv.flatStack v this L2.vStack
      · exact (hPmem y).mpr ⟨hys, hNy⟩
  have hPsucc : ∀ x ∈ P, ∀ t ∈ g.tails x, Dm σ₂ t := by
    intro x hx t ht
    by_cases hxv : x = v
    · exact hdone t (by rw [← hxv]; exact ht)
    · have hxgr : x ∉ v :: grays := by
        intro hmem
        rcases List.mem_cons.mp hmem with heq | hmem
        · exact hxv heq
        · rcases List.mem_append.mp hx with hxΔ | hxv'
          · exact (hΔfacts x hxΔ).1 (hgrDm0 x hmem)
          · exact hxv (by simpa using hxv')
      exact L2.inv.blackSucc x (hPDm x hx) hxgr t ht
  have hPclosed : ∀ x ∈ P, ∀ t ∈ g.tails x, t ∈ P ∨ t ∈ σ₂.comps.flatten := by
    intro x hx t ht
    have hDmt : Dm σ₂ t := hPsucc x hx t ht
    by_cases hts : t ∈ σ₂.stack
    · obtain ⟨hxs, hNx⟩ := (hPmem x).mp hx
      rcases hfullLB x hxs hNx t ht hts with hl | hr
      · rw [hroot] at hl
        exact Or.inl ((hPmem t).mpr ⟨hts, hl⟩)
      · exact Or.inl ((hPmem t).mpr ⟨hts, hr⟩)
    · rcases (L2.inv.partition t).mp hDmt with hfl | hst
      · exact Or.inr hfl
      · exact absurd hst hts
  rw [hσ₃]
  set σ₃ : St := { σ₂ with stack := σ0.stack, comps := σ₂.comps ++ [P] } with hσ₃def
  have hDm₃ : ∀ x, Dm σ₃ x ↔ Dm σ₂ x := fun x => Iff.rfl
  have hnum₃ : ∀ x, numD σ₃ x = numD σ₂ x := fun x => rfl
  have hlow₃ : ∀ x, lowD σ₃ x = lowD σ₂ x := fun x => rfl
  have hflat₃ : σ₃.comps.flatten = σ₂.comps.flatten ++ P := by
    show (σ₂.comps ++ [P]).flatten = σ₂.comps.flatten ++ P
    rw [List.flatten_append]
    simp
  constructor
  · refine ⟨L2.inv.dSub, L2.inv.numLe, ?_, ?_, ?_, hInv0.graysChain, ?_, ?_, ?_, ?_,
      ?_, ?_, ?_, ?_, ?_, ?_, ?_⟩
    · intro x hx
      exact L2.inv.stackD x (hold_stack x hx)
    · show σ0.stack.Chain' fun a b => numD σ₂ b < numD σ₂ a
      have := L2.inv.stackSorted
      rw [hstack2'] at this
      exact ((List.chain'_append.mp this).2).1
    · intro y hy
      have hy2 : y ∈ σ₂.stack := L2.inv.graysSub y (List.mem_cons_of_mem _ hy)
      rw [hstack2'] at hy2
      rcases List.mem_append.mp hy2 with hyP | hy0
      · exfalso
        have hy0' : Dm σ0 y := hgrDm0 y hy
        have : numD σ₂ y ≤ σ0.counter := by
          rw [L2.numKeep0 y hy0']; exact hInv0.numLe y hy0'
        have := ((hPmem y).mp hyP).2
        omega
      · exact hy0
    · intro x hx
      exact L2.inv.lowLe x (hold_stack x hx)
    · intro x hx
      obtain ⟨y, hy, hyn, hyr⟩ := L2.inv.lowWit x (hold_stack x hx)
      have hylt : numD σ₂ y ≤ σ0.counter := by
        have h1 : lowD σ₂ x ≤ numD σ₂ x := L2.inv.lowLe x (hold_stack x hx)
        have h2 := hold_num x hx
        omega
      refine ⟨y, ?_, hyn, hyr⟩
      rw [hstack2'] at hy
      rcases List.mem_append.mp hy with hyP | hy0
      · exfalso
        have := ((hPmem y).mp hyP).2
        omega
      · exact hy0
    · intro x hx y hy hxy
      exact L2.inv.stackReach x (hold_stack x hx) y (hold_stack y hy) hxy
    · intro x hx
      obtain ⟨y, hy, hyn, hyr⟩ := L2.inv.grayWit x (hold_stack x hx)
      rcases List.mem_cons.mp hy with heq | hy
      · exfalso
        have h1 := hold_num x hx
        rw [heq, hnumv] at hyn
        omega
      · exact ⟨y, hy, hyn, hyr⟩
    · intro x hx hxg t ht
      by_cases hxv : x = v
      · exact hdone t (by rw [← hxv]; exact ht)
      · have : x ∉ v :: grays := by
          intro hmem
          rcases List.mem_cons.mp hmem with heq | hmem
          · exact hxv heq
          · exact hxg hmem
        exact L2.inv.blackSucc x hx this t ht
    · rw [hflat₃]
      refine List.Nodup.append L2.inv.flatNodup hPnodup ?_
      intro x hx hxP
      exact L2.inv.flatStack x hx (((hPmem x).mp hxP).1)
    · intro x hx
      rw [hflat₃] at hx
      rcases List.mem_append.mp hx with hfl | hxP
      · intro hx0
        exact L2.inv.flatStack x hfl (hold_stack x hx0)
      · exact hPdisj x hxP
    · intro x
      rw [hDm₃, hflat₃, L2.inv.partition x, hstack2']
      simp only [List.mem_append]
      tauto
    · intro c hc x hx y
      rcases List.mem_append.mp hc with hcold | hcP
      · exact L2.inv.compsSCC c hcold x hx y
      · have : c = P := by simpa using hcP
        rw [this] at hx ⊢
        exact hSCCP x hx y
    · intro j hj x hx t ht
      have hlen : σ₃.comps.length = σ₂.comps.length + 1 := by
        show (σ₂.comps ++ [P]).length = _
        simp
      by_cases hjold : j < σ₂.comps.length
      · have hget : σ₃.comps.get ⟨j, hj⟩ = σ₂.comps.get ⟨j, hjold⟩ := by
          show (σ₂.comps ++ [P]).get ⟨j, hj⟩ = _
          exact List.get_append j hjold
        rw [hget] at hx
        obtain ⟨i, hi, hij, hti⟩ := L2.inv.compsClosed j hjold x hx t ht
        have hib : i < σ₃.comps.length := by rw [hσ₃def]; simp; omega
        refine ⟨i, hib, hij, ?_⟩
        have : σ₃.comps.get ⟨i, hib⟩ = σ₂.comps.get ⟨i, hi⟩ := by
          show (σ₂.comps ++ [P]).get ⟨i, hib⟩ = _
          exact List.get_append i hi
        rw [this]
        exact hti
      · have hjP : j = σ₂.comps.length := by omega
        have hget : σ₃.comps.get ⟨j, hj⟩ = P := by
          show (σ₂.comps ++ [P]).get ⟨j, hj⟩ = P
          subst hjP
          simp
        rw [hget] at hx
        rcases hPclosed x hx t ht with htP | htfl
        · refine ⟨j, hj, le_refl _, ?_⟩
          rw [hget]
          exact htP
        · obtain ⟨i, hi, hti⟩ := (mem_flatten_iff_get _ _).mp htfl
          have hib : i < σ₃.comps.length := by rw [hσ₃def]; simp; omega
          refine ⟨i, hib, by omega, ?_⟩
          have : σ₃.comps.get ⟨i, hib⟩ = σ₂.comps.get ⟨i, hi⟩ := by
            show (σ₂.comps ++ [P]).get ⟨i, hib⟩ = _
            exact List.get_append i hi
          rw [this]
          exact hti
    · intro c hc
      rcases List.mem_append.mp hc with hcold | hcP
      · exact L2.inv.compsNE c hcold
      · have : c = P := by simpa using hcP
        rw [this]
        exact List.ne_nil_of_mem hvP
  · refine ⟨L2.dmV, ?_, L2.dMono0, L2.countKeep0, L2.lowKeep0, ?_, L2.newReach,
      ?_, ⟨[], rfl, by simp⟩, ?_, ?_, fun _ => ?_, ?_⟩
    · rw [hnum₃ v]; exact hnumv
    · have := L2.counterMono
      show σ0.counter ≤ σ₂.counter
      omega
    · intro x hx hx0
      rw [hnum₃ x]
      by_cases hxv : x = v
      · rw [hxv, hnumv]; omega
      · have := L2.newNum x hx hx0 hxv
        omega
    · obtain ⟨nw, hnw⟩ := L2.compsShape
      exact ⟨nw ++ [P], by show σ₂.comps ++ [P] = _; rw [hnw, List.append_assoc]⟩
    · rw [hlow₃ v, hnum₃ v]
      exact le_of_eq hcond
    · rw [hlow₃ v, hnum₃ v]
      exact hcond
    · intro x hxs hNx t ht hts
      exfalso
      have h1 := hold_num x hxs
      rw [hnum₃ x, hnum₃ v, hnumv] at hNx
      omega

lemma sc_nonroot_case (g : Graph) {grays : List String} {σ0 σ₂ : St} {v : String}
    (hInv0 : Inv g grays σ0) (hnew0 : ¬ Dm σ0 v)
    (L2 : LoopInv g (v :: grays) σ0 v σ₂)
    (hdone : ∀ t ∈ g.tails v, Dm σ₂ t)
    (hfullLB : ∀ x ∈ σ₂.stack, σ0.counter + 1 ≤ numD σ₂ x → ∀ t ∈ g.tails x,
      t ∈ σ₂.stack → (lowD σ₂ v ≤ numD σ₂ t ∨ σ0.counter + 1 ≤ numD σ₂ t))
    (hnroot : lowD σ₂ v ≠ σ0.counter + 1) :
    Inv g grays (popRoot σ₂ v) ∧ SCPost g σ0 (popRoot σ₂ v) v := by
  have hgrDm0 : ∀ y ∈ grays, Dm σ0 y := fun y hy =>
    hInv0.stackD y (hInv0.graysSub y hy)
  have hnumv : numD σ₂ v = σ0.counter + 1 := L2.numV
  have hcond : ¬ (lowD σ₂ v = numD σ₂ v) := by rw [hnumv]; exact hnroot
  have hσ : popRoot σ₂ v = σ₂ := by rw [popRoot, if_neg hcond]
  rw [hσ]
  have hlowlt : lowD σ₂ v < σ0.counter + 1 := lt_of_le_of_ne L2.vLow hnroot
  obtain ⟨w, hw, hwn, hwr⟩ := L2.inv.lowWit v L2.vStack
  have hwlt : numD σ₂ w < σ0.counter + 1 := by rw [hwn]; exact hlowlt
  obtain ⟨y', hy', hy'n, hy'r⟩ := L2.inv.grayWit w hw
  have hy'gr : y' ∈ grays := by
    rcases List.mem_cons.mp hy' with heq | h
    · exfalso
      rw [heq, hnumv] at hy'n
      omega
    · exact h
  have hy'lt : numD σ₂ y' < σ0.counter + 1 := lt_of_le_of_lt hy'n hwlt
  have hvy' : Reach g v y' := reach_trans hwr hy'r
  obtain ⟨Δ, hΔ, hfreshΔ⟩ := L2.stackShape
  refine ⟨⟨L2.inv.dSub, L2.inv.numLe, L2.inv.stackD, L2.inv.stackSorted, ?_,
    hInv0.graysChain, L2.inv.lowLe, L2.inv.lowWit, L2.inv.stackReach, ?_, ?_,
    L2.inv.flatNodup, L2.inv.flatStack, L2.inv.partition, L2.inv.compsSCC,
    L2.inv.compsClosed, L2.inv.compsNE⟩, ?_⟩
  · intro y hy
    exact L2.inv.graysSub y (List.mem_cons_of_mem _ hy)
  · intro x hx
    obtain ⟨y, hy, hyn, hyr⟩ := L2.inv.grayWit x hx
    rcases List.mem_cons.mp hy with heq | hy
    · refine ⟨y', hy'gr, ?_, ?_⟩
      · rw [heq, hnumv] at hyn
        omega
      · rw [heq] at hyr
        exact reach_trans hyr hvy'
    · exact ⟨y, hy, hyn, hyr⟩
  · intro x hx hxg t ht
    by_cases hxv : x = v
    · exact hdone t (by rw [← hxv]; exact ht)
    · have : x ∉ v :: grays := by
        intro hmem
        rcases List.mem_cons.mp hmem with heq | hmem
        · exact hxv heq
        · exact hxg hmem
      exact L2.inv.blackSucc x hx this t ht
  · refine ⟨L2.dmV, hnumv, L2.dMono0, L2.countKeep0, L2.lowKeep0, ?_, L2.newReach,
      ?_, ?_, L2.compsShape, ?_, ?_, ?_⟩
    · have := L2.counterMono
      omega
    · intro x hx hx0
      by_cases hxv : x = v
      · rw [hxv, hnumv]; omega
      · have := L2.newNum x hx hx0 hxv
        omega
    · refine ⟨Δ ++ [v], by rw [hΔ, List.append_assoc, List.singleton_append], ?_⟩
      intro x hx
      rcases List.mem_append.mp hx with hxΔ | hxv
      · exact fun h => hfreshΔ x hxΔ ((Dm_discover σ0 v x).mpr (Or.inr h))
      · have : x = v := by simpa using hxv
        rw [this]
        exact hnew0
    · rw [hnumv]
      exact le_of_lt hlowlt
    · intro hvs
      exact absurd L2.vStack hvs
    · intro x hxs hNx t ht hts
      rw [hnumv] at hNx
      rw [hnumv]
      exact hfullLB x hxs hNx t ht hts

/-- Full functional specification of one `strong_connect` activation, by
strong induction on the number of undiscovered vertices. -/
theorem sc_spec (g : Graph) (hTC : TailsClosed g) :
    ∀ n σ grays v, muSC g σ ≤ n → Inv g grays σ → v ∈ g.vertices → ¬ Dm σ v →
      (∀ y ∈ grays, Reach g y v) →
      Inv g grays (strongConnectF g (sccFuel g) σ v) ∧
        SCPost g σ (strongConnectF g (sccFuel g) σ v) v := by
  intro n
  induction n using Nat.strong_induction_on with
  | _ n IH =>
    intro σ grays v hμ hInv hv hnew hgr
    have hIH' : ∀ σ' t, muSC g σ' < muSC g σ → Inv g (v :: grays) σ' →
        t ∈ g.vertices → ¬ Dm σ' t → (∀ y ∈ v :: grays, Reach g y t) →
        Inv g (v :: grays) (strongConnectF g (sccFuel g) σ' t) ∧
          SCPost g σ' (strongConnectF g (sccFuel g) σ' t) t := by
      intro σ' t hlt hi ht hn hr
      exact IH (muSC g σ') (by omega) σ' (v :: grays) t (le_refl _) hi ht hn hr
    rw [strongConnect_eq g hTC σ v hInv.dSub hv hnew]
    have hdisc : ∀ x, Dm (discover σ v) x ↔ x = v ∨ Dm σ x := Dm_discover σ v
    have L1 : LoopInv g (v :: grays) σ v (discover σ v) := by
      refine ⟨Inv_discover hInv hv hnew hgr, (hdisc v).mpr (Or.inl rfl),
        numD_discover_same σ v, List.mem_cons_self _ _, fun x hx => hx, ?_, ?_,
        ?_, ?_, ?_, ⟨[], rfl, by simp⟩, ⟨[], by simp [discover]⟩, ?_, ?_⟩
      · intro x hx
        exact count_lookup_discover_other σ v x fun hEq => hnew (hEq ▸ hx)
      · intro x hx
        exact low_lookup_discover_other σ v x fun hEq => hnew (hEq ▸ hx)
      · show σ.counter + 1 ≤ σ.counter + 1
        exact le_refl _
      · intro x hx hx0
        rcases (hdisc x).mp hx with heq | h
        · rw [heq]; exact reach_refl g v
        · exact absurd h hx0
      · intro x hx hx0 hxv
        rcases (hdisc x).mp hx with heq | h
        · exact absurd heq hxv
        · exact absurd h hx0
      · rw [lowD_discover_same]
      · intro x hxs hNx hxv t ht hts
        exfalso
        have hxs' : x ∈ v :: σ.stack := hxs
        rcases List.mem_cons.mp hxs' with heq | hx
        · exact hxv heq
        · have hx0 : Dm σ x := hInv.stackD x hx
          have h1 : numD (discover σ v) x = numD σ x :=
            numD_discover_other σ v x fun hEq => hnew (hEq ▸ hx0)
          have h2 : numD σ x ≤ σ.counter := hInv.numLe x hx0
          omega
    obtain ⟨L2, S2, E2⟩ := visitTails_spec g hTC hInv hv hnew hgr hIH'
      (g.tails v) (discover σ v) (fun t ht => ht) L1
    have hdone : ∀ t ∈ g.tails v,
        Dm (visitTails g (fun σ' t => strongConnectF g (sccFuel g) σ' t) v
          (discover σ v) (g.tails v)) t := fun t ht => (E2 t ht).1
    have hfullLB : ∀ x ∈ (visitTails g (fun σ' t => strongConnectF g (sccFuel g) σ' t) v
          (discover σ v) (g.tails v)).stack,
        σ.counter + 1 ≤ numD (visitTails g (fun σ' t => strongConnectF g (sccFuel g) σ' t) v
          (discover σ v) (g.tails v)) x →
        ∀ t ∈ g.tails x,
          t ∈ (visitTails g (fun σ' t => strongConnectF g (sccFuel g) σ' t) v
            (discover σ v) (g.tails v)).stack →
          (lowD (visitTails g (fun σ' t => strongConnectF g (sccFuel g) σ' t) v
              (discover σ v) (g.tails v)) v ≤
            numD (visitTails g (fun σ' t => strongConnectF g (sccFuel g) σ' t) v
              (discover σ v) (g.tails v)) t ∨
          σ.counter + 1 ≤ numD (visitTails g (fun σ' t => strongConnectF g (sccFuel g) σ' t) v
            (discover σ v) (g.tails v)) t) := by
      intro x hxs hNx t ht hts
      by_cases hxv : x = v
      · exact (E2 t (by rw [← hxv]; exact ht)).2 hts
      · exact L2.regionLB x hxs hNx hxv t ht hts
    by_cases hroot : lowD (visitTails g (fun σ' t => strongConnectF g (sccFuel g) σ' t) v
        (discover σ v) (g.tails v)) v = σ.counter + 1
    · exact sc_root_case g hInv hnew L2 hdone hfullLB hroot
    · exact sc_nonroot_case g hInv hnew L2 hdone hfullLB hroot

/-! ### The top-level vertex loop and the final state -/

lemma Dm_init (x : String) : ¬ Dm St.init x := fun h => h rfl

lemma Inv_init (g : Graph) : Inv g [] St.init := by
  refine ⟨?_, ?_, ?_, ?_, ?_, ?_, ?_, ?_, ?_, ?_, ?_, ?_, ?_, ?_, ?_, ?_, ?_⟩ <;>
    simp [St.init, DClosed, Dm, numD, lowD]

/-- Running the vertex loop from a gray-free invariant state discovers every
listed vertex while preserving the invariant. -/
lemma sccFold_spec (g : Graph) (hTC : TailsClosed g) :
    ∀ vs σ, (∀ v ∈ vs, v ∈ g.vertices) → Inv g [] σ →
      Inv g [] (sccFold g (sccFuel g) σ vs) ∧
      (∀ v ∈ vs, Dm (sccFold g (sccFuel g) σ vs) v) ∧
      (∀ x, Dm σ x → Dm (sccFold g (sccFuel g) σ vs) x) := by
  intro vs
  induction vs with
  | nil =>
    intro σ hsub hInv
    exact ⟨hInv, fun v hv => absurd hv (List.not_mem_nil v), fun x hx => hx⟩
  | cons v vs ih =>
    intro σ hsub hInv
    have hunf : sccFold g (sccFuel g) σ (v :: vs) =
        sccFold g (sccFuel g)
          (if seen σ v then σ else strongConnectF g (sccFuel g) σ v) vs := rfl
    rw [hunf]
    by_cases hs : seen σ v = true
    · rw [if_pos hs]
      obtain ⟨h1, h2, h3⟩ := ih σ (fun w hw => hsub w (List.mem_cons_of_mem v hw)) hInv
      refine ⟨h1, ?_, h3⟩
      intro w hw
      rcases List.mem_cons.mp hw with heq | hw2
      · rw [heq]
        exact h3 v ((seen_iff_Dm σ v).mp hs)
      · exact h2 w hw2
    · rw [if_neg hs]
      have hnew : ¬ Dm σ v := fun hd => hs ((seen_iff_Dm σ v).mpr hd)
      obtain ⟨hInv2, hP⟩ := sc_spec g hTC (muSC g σ) σ [] v (le_refl _) hInv
        (hsub v (List.mem_cons_self v vs)) hnew (fun y hy => absurd hy (List.not_mem_nil y))
      obtain ⟨h1, h2, h3⟩ := ih (strongConnectF g (sccFuel g) σ v)
        (fun w hw => hsub w (List.mem_cons_of_mem v hw)) hInv2
      refine ⟨h1, ?_, fun x hx => h3 x (hP.dMono x hx)⟩
      intro w hw
      rcases List.mem_cons.mp hw with heq | hw2
      · rw [heq]
        exact h3 v hP.dmV
      · exact h2 w hw2

/-- The state after the whole `__call__` loop. -/
def finalSt (g : Graph) : St := sccFold g (sccFuel g) St.init g.vertices

lemma scc_eq_final (g : Graph) :
    stronglyConnectedComponents g = (finalSt g).comps := rfl

lemma final_spec (g : Graph) (hTC : TailsClosed g) :
    Inv g [] (finalSt g) ∧ ∀ v ∈ g.vertices, Dm (finalSt g) v := by
  obtain ⟨h1, h2, h3⟩ := sccFold_spec g hTC g.vertices St.init
    (fun v hv => hv) (Inv_init g)
  exact ⟨h1, h2⟩

/-- With no gray vertices the invariant forces an empty stack. -/
lemma Inv_nil_stack {g : Graph} {σ : St} (hInv : Inv g [] σ) : σ.stack = [] := by
  cases hstk : σ.stack with
  | nil => rfl
  | cons x rest =>
    exfalso
    obtain ⟨y, hy, -⟩ := hInv.grayWit x (by rw [hstk]; exact List.mem_cons_self x rest)
    exact absurd hy (List.not_mem_nil y)

lemma mem_scc_flatten_iff (g : Graph) (hTC : TailsClosed g) (x : String) :
    x ∈ (stronglyConnectedComponents g).flatten ↔ x ∈ g.vertices := by
  obtain ⟨hInv, hall⟩ := final_spec g hTC
  rw [scc_eq_final]
  constructor
  · intro hx
    exact hInv.dSub x ((hInv.partition x).mpr (Or.inl hx))
  · intro hx
    rcases (hInv.partition x).mp (hall x hx) with h | h
    · exact h
    · rw [Inv_nil_stack hInv] at h
      exact absurd h (List.not_mem_nil x)

/-- Characterisation of same-component membership in the engine output. -/
lemma same_comp_iff (g : Graph) (hTC : TailsClosed g) (u w : String) :
    (∃ c ∈ stronglyConnectedComponents g, u ∈ c ∧ w ∈ c) ↔
      (u ∈ g.vertices ∧ Reach g u w ∧ Reach g w u) := by
  obtain ⟨hInv, hall⟩ := final_spec g hTC
  rw [scc_eq_final]
  constructor
  · rintro ⟨c, hc, huc, hwc⟩
    have hu : u ∈ g.vertices :=
      hInv.dSub u ((hInv.partition u).mpr (Or.inl (List.mem_flatten.mpr ⟨c, hc, huc⟩)))
    exact ⟨hu, (hInv.compsSCC c hc u huc w).mp hwc⟩
  · rintro ⟨hu, huw, hwu⟩
    rcases (hInv.partition u).mp (hall u hu) with h | h
    · obtain ⟨c, hc, huc⟩ := List.mem_flatten.mp h
      exact ⟨c, hc, huc, (hInv.compsSCC c hc u huc w).mpr ⟨huw, hwu⟩⟩
    · rw [Inv_nil_stack hInv] at h
      exact absurd h (List.not_mem_nil u)

/-! ### Graphs built by the `Graph` constructor -/

lemma gstep_iff_mem (g : Graph) (a b : String) :
    gstep g a b ↔ (a, b) ∈ g.edges := by
  simp only [gstep, Graph.tails, List.mem_map, List.mem_filter]
  constructor
  · rintro ⟨⟨x, y⟩, ⟨he, hbeq⟩, heq⟩
    have h1 : x = a := eq_of_beq hbeq
    have h2 : y = b := heq
    rw [h1, h2] at he
    exact he
  · intro h
    exact ⟨(a, b), ⟨h, by simp⟩, rfl⟩

lemma reach_congr {g1 g2 : Graph} (h : ∀ a b, gstep g1 a b ↔ gstep g2 a b)
    (x y : String) : Reach g1 x y ↔ Reach g2 x y :=
  ⟨Relation.ReflTransGen.mono fun a b hab => (h a b).mp hab,
   Relation.ReflTransGen.mono fun a b hab => (h a b).mpr hab⟩

/-! ### Remaining correctness consequences -/

/-- Components recorded earlier are closed under reachability: following any
path can only move to a component with a smaller or equal index. -/
lemma comps_reach_le {g : Graph} {σ : St} (hInv : Inv g [] σ) (x y : String)
    (hxy : Reach g x y) :
    ∀ j, (hj : j < σ.comps.length) → x ∈ σ.comps.get ⟨j, hj⟩ →
      ∃ i, ∃ (hi : i < σ.comps.length), i ≤ j ∧ y ∈ σ.comps.get ⟨i, hi⟩ := by
  induction hxy with
  | refl =>
    intro j hj hx
    exact ⟨j, hj, le_refl j, hx⟩
  | tail h1 h2 ih =>
    intro j hj hx
    obtain ⟨i, hi, hij, hbi⟩ := ih j hj hx
    obtain ⟨i2, hi2, hii2, hci2⟩ := hInv.compsClosed i hi _ hbi _ h2
    exact ⟨i2, hi2, le_trans hii2 hij, hci2⟩

/-- In a list with duplicate-free flattening, an element appears in at most one
slot. -/
lemma flatten_nodup_get_inj {l : List (List String)} (h : l.flatten.Nodup)
    {i j : Nat} (hi : i < l.length) (hj : j < l.length) {y : String}
    (hyi : y ∈ l.get ⟨i, hi⟩) (hyj : y ∈ l.get ⟨j, hj⟩) : i = j := by
  by_contra hne
  have hpw : l.Pairwise List.Disjoint := (List.nodup_flatten.mp h).2
  rcases Nat.lt_or_ge i j with hlt | hge
  · exact List.pairwise_iff_get.mp hpw ⟨i, hi⟩ ⟨j, hj⟩ hlt hyi hyj
  · have hlt2 : j < i := by omega
    exact List.pairwise_iff_get.mp hpw ⟨j, hj⟩ ⟨i, hi⟩ hlt2 hyj hyi

/-- A graph with no edges admits no non-trivial reachability. -/
lemma reach_nil_edges (extra : List String) (x y : String)
    (h : Reach (Graph.ofEdges [] extra) x y) : x = y := by
  induction h with
  | refl => rfl
  | tail h1 h2 ih =>
    exact absurd ((gstep_iff_mem _ _ _).mp h2) (List.not_mem_nil _)

/-- Each emitted component is duplicate-free. -/
lemma comp_nodup {g : Graph} {σ : St} (hInv : Inv g [] σ) {c : List String}
    (hc : c ∈ σ.comps) : c.Nodup :=
  (List.nodup_flatten.mp hInv.flatNodup).1 c hc

/-- C1: two vertices of a constructed graph land in the same returned component
exactly when each is reachable from the other along directed edges. -/
theorem scc_same_component_iff_mutual_reach (edges : List (String × String))
    (extra : List String) (u w : String)
    (hu : u ∈ (Graph.ofEdges edges extra).vertices) :
    (∃ c ∈ stronglyConnectedComponents (Graph.ofEdges edges extra), u ∈ c ∧ w ∈ c) ↔
      (Reach (Graph.ofEdges edges extra) u w ∧ Reach (Graph.ofEdges edges extra) w u) := by
  rw [same_comp_iff _ (tailsClosed_ofEdges edges extra) u w]
  simp [hu]

theorem scc_same_component_iff_mutual_reach_witness :
    "a" ∈ (Graph.ofEdges [("a", "b"), ("b", "a")] []).vertices ∧
    (∃ c ∈ stronglyConnectedComponents (Graph.ofEdges [("a", "b"), ("b", "a")] []),
      "a" ∈ c ∧ "b" ∈ c) := by
  refine ⟨by decide, ?_⟩
  refine (scc_same_component_iff_mutual_reach [("a", "b"), ("b", "a")] [] "a" "b"
    (by decide)).mpr ?_
  constructor
  · exact Relation.ReflTransGen.single ((gstep_iff_mem _ "a" "b").mpr (by decide))
  · exact Relation.ReflTransGen.single ((gstep_iff_mem _ "b" "a").mpr (by decide))

/-- C2: the returned components partition the vertex set: their concatenation
has no duplicates and contains exactly the graph's vertices. -/
theorem scc_partition (edges : List (String × String)) (extra : List String) :
    (stronglyConnectedComponents (Graph.ofEdges edges extra)).flatten.Nodup ∧
    ∀ x, (x ∈ (stronglyConnectedComponents (Graph.ofEdges edges extra)).flatten ↔
      x ∈ (Graph.ofEdges edges extra).vertices) := by
  obtain ⟨hInv, hall⟩ := final_spec _ (tailsClosed_ofEdges edges extra)
  constructor
  · rw [scc_eq_final]
    exact hInv.flatNodup
  · intro x
    exact mem_scc_flatten_iff _ (tailsClosed_ofEdges edges extra) x

/-- C9: removing duplicate edges before building the graph leaves the
same-component relation of the engine output unchanged. -/
theorem scc_dedup_invariant (l : List (String × String)) (u w : String) :
    (∃ c ∈ stronglyConnectedComponents (Graph.ofEdges l []), u ∈ c ∧ w ∈ c) ↔
    (∃ c ∈ stronglyConnectedComponents (Graph.ofEdges l.dedup []), u ∈ c ∧ w ∈ c) := by
  rw [same_comp_iff _ (tailsClosed_ofEdges l []) u w,
      same_comp_iff _ (tailsClosed_ofEdges l.dedup []) u w]
  have hstep : ∀ a b, gstep (Graph.ofEdges l []) a b ↔ gstep (Graph.ofEdges l.dedup []) a b := by
    intro a b
    rw [gstep_iff_mem, gstep_iff_mem]
    show (a, b) ∈ l ↔ (a, b) ∈ l.dedup
    exact List.mem_dedup.symm
  have hv : u ∈ (Graph.ofEdges l []).vertices ↔ u ∈ (Graph.ofEdges l.dedup []).vertices := by
    rw [mem_ofEdges_vertices, mem_ofEdges_vertices]
    constructor
    · rintro (⟨e, he, hx⟩ | hodd)
      · exact Or.inl ⟨e, List.mem_dedup.mpr he, hx⟩
      · exact Or.inr hodd
    · rintro (⟨e, he, hx⟩ | hodd)
      · exact Or.inl ⟨e, List.mem_dedup.mp he, hx⟩
      · exact Or.inr hodd
  rw [hv, reach_congr hstep u w, reach_congr hstep w u]

/-- C10: components are emitted in reverse topological order: a directed path
from a component with index j to a different component with index i forces
i < j, i.e. the target component was emitted earlier. -/
theorem scc_reverse_topological (edges : List (String × String)) (extra : List String)
    (i j : Nat)
    (hj : j < (stronglyConnectedComponents (Graph.ofEdges edges extra)).length)
    (hi : i < (stronglyConnectedComponents (Graph.ofEdges edges extra)).length)
    (x y : String)
    (hx : x ∈ (stronglyConnectedComponents (Graph.ofEdges edges extra)).get ⟨j, hj⟩)
    (hy : y ∈ (stronglyConnectedComponents (Graph.ofEdges edges extra)).get ⟨i, hi⟩)
    (hpath : Reach (Graph.ofEdges edges extra) x y)
    (hne : i ≠ j) : i < j := by
  obtain ⟨hInv, -⟩ := final_spec _ (tailsClosed_ofEdges edges extra)
  obtain ⟨i2, hi2, hle, hy2⟩ := comps_reach_le hInv x y hpath j hj hx
  have heq : i = i2 := flatten_nodup_get_inj hInv.flatNodup hi hi2 hy hy2
  omega

theorem scc_reverse_topological_witness :
    (0 : Nat) ≠ 1 ∧ (0 : Nat) < 1 := by
  refine ⟨by decide, ?_⟩
  exact scc_reverse_topological [("a", "b")] [] 0 1 (by decide) (by decide) "a" "b"
    (by decide) (by decide)
    (Relation.ReflTransGen.single ((gstep_iff_mem _ "a" "b").mpr (by decide)))
    (by decide)

/-- C6: the reporter emits exactly the components with at least two distinct
members; on a graph whose mutual-reachability is trivial (a DAG) it emits
nothing; and a genuine self-import still yields only a suppressed size-1
component. -/
theorem reporter_spec (edges : List (String × String)) (extra : List String) :
    (∀ c, c ∈ report (stronglyConnectedComponents (Graph.ofEdges edges extra)) ↔
      (c ∈ stronglyConnectedComponents (Graph.ofEdges edges extra) ∧
        ∃ x ∈ c, ∃ y ∈ c, x ≠ y)) ∧
    ((∀ x y, Reach (Graph.ofEdges edges extra) x y →
        Reach (Graph.ofEdges edges extra) y x → x = y) →
      report (stronglyConnectedComponents (Graph.ofEdges edges extra)) = []) ∧
    report (stronglyConnectedComponents (Graph.ofEdges [("a", "a")] [])) = [] := by
  obtain ⟨hInv, hall⟩ := final_spec _ (tailsClosed_ofEdges edges extra)
  refine ⟨?_, ?_, by decide⟩
  · intro c
    rw [report, List.mem_filter]
    constructor
    · rintro ⟨hc, hlen⟩
      have hlen2 : c.length ≠ 1 := by
        intro h1
        rw [h1] at hlen
        simp at hlen
      refine ⟨hc, ?_⟩
      have hc2 : c ∈ (finalSt (Graph.ofEdges edges extra)).comps := by
        rw [← scc_eq_final]
        exact hc
      match c, hlen2 with
      | [], h2 => exact absurd rfl (hInv.compsNE [] hc2)
      | [a], h2 => exact absurd rfl h2
      | a :: b :: rest, h2 =>
        have hnd := comp_nodup hInv hc2
        refine ⟨a, by simp, b, by simp, ?_⟩
        intro hab
        exact (List.nodup_cons.mp hnd).1 (by rw [hab]; exact List.mem_cons_self b rest)
    · rintro ⟨hc, x, hx, y, hy, hxy⟩
      refine ⟨hc, ?_⟩
      have hlen2 : c.length ≠ 1 := by
        intro h1
        obtain ⟨a, rfl⟩ := List.length_eq_one.mp h1
        rw [List.mem_singleton] at hx hy
        rw [hx, hy] at hxy
        exact hxy rfl
      simpa using hlen2
  · intro hacyc
    rw [report]
    refine List.filter_eq_nil_iff.mpr ?_
    intro c hc
    have hc2 : c ∈ (finalSt (Graph.ofEdges edges extra)).comps := by
      rw [← scc_eq_final]
      exact hc
    have hne : c ≠ [] := hInv.compsNE c hc2
    obtain ⟨a, rest, rfl⟩ := List.exists_cons_of_ne_nil hne
    have hall2 : ∀ y ∈ a :: rest, y = a := by
      intro y hyc
      have := (hInv.compsSCC (a :: rest) hc2 a (List.mem_cons_self a rest) y).mp hyc
      exact (hacyc a y this.1 this.2).symm
    have hrest : rest = [] := by
      cases hrest : rest with
      | nil => rfl
      | cons r rs =>
        exfalso
        have hra : r = a := hall2 r (by rw [hrest]; exact List.mem_cons_of_mem a (List.mem_cons_self r rs))
        have hnd := comp_nodup hInv hc2
        apply (List.nodup_cons.mp hnd).1
        rw [hrest, hra]
        exact List.mem_cons_self a rs
    rw [hrest]
    simp

theorem reporter_spec_witness :
    report (stronglyConnectedComponents (Graph.ofEdges [] ["a"])) = [] := by
  refine (reporter_spec [] ["a"]).2.1 ?_
  intro x y hxy hyx
  exact reach_nil_edges ["a"] x y hxy

end ImportChecker


